import Mathlib

/-!
Shallow embedding of the Pi-Pico OneWire interface (src/Code/OneWire.c,
src/Code/OneWire.h) and proofs about it.

Conventions of the embedding:
* Machine integers are modelled as Nat (or Int where the C computation is on
  signed int), with explicit mod where a C conversion truncates.
* The two PIO FIFOs are modelled as word lists in a PioState record; a
  blocking get on an empty Rx FIFO never returns, which is modelled by an
  Option result (none = the C call never returns).
* oneWire_status is uint16_t in OneWire.h.  Status values are carried as Int
  with the values of the #defines; the single place where a 32-bit datum is
  stored into the 16-bit status type (oneWire_pull_read_data) models that
  truncation explicitly with % 2^16.
* The Pico (ARM Cortex-M0+) is little-endian, so the union { uint8_t a[4];
  uint32_t l; } in oneWire_pull_read_bytes reads byte k of a word w as
  (w >>> (8*k)) &&& 0xFF.
-/

/-- Error codes from OneWire.h. -/
def ONE_WIRE_NO_ERROR : Int := 0

/-- Error code: a read request of more than 16 bytes could overflow the FIFO. -/
def ONE_WIRE_POSSIBLE_FIFO_OVERFLOW : Int := -1

/-- Error code: wait=false and no room in the Tx FIFO. -/
def ONE_WIRE_NOT_ENOUGH_TX_FIFO_SPACE : Int := -2

/-- Error code: wait=false and the data is not in the Rx FIFO. -/
def ONE_WIRE_NOT_ENOUGH_DATA_IN_RX_FIFO : Int := -3

/-- Error code: CRC check failed. -/
def ONE_WIRE_READ_CRC_FAILURE : Int := -4

/-- Error code: protocol violation during the ROM search. -/
def ONE_WIRE_SEARCH_ROM_FAILURE : Int := -5

/-- Error code: requested bit count outside 1..32. -/
def ONE_WIRE_ILLEGAL_DATA_SIZE_REQ : Int := -6

/-- FIFO depth of the PIO state machine (OneWire.c line 16). -/
def ONE_WIRE_FIFODEPTH : Nat := 4

/-- State of the PIO state machine's two FIFOs: the words currently queued in
the Tx (command) FIFO and in the Rx (response) FIFO. -/
structure PioState where
  txQ : List Nat
  rxQ : List Nat
deriving Repr, DecidableEq

/-- The Tx FIFO is full when it holds ONE_WIRE_FIFODEPTH words. -/
def pio_sm_is_tx_fifo_full (s : PioState) : Bool :=
  ONE_WIRE_FIFODEPTH ≤ s.txQ.length

/-- Number of words currently in the Tx FIFO. -/
def pio_sm_get_tx_fifo_level (s : PioState) : Nat := s.txQ.length

/-- Number of words currently in the Rx FIFO. -/
def pio_sm_get_rx_fifo_level (s : PioState) : Nat := s.rxQ.length

/-- Push one 32-bit word into the Tx FIFO (pio_sm_put_blocking).  The word is
a uint32_t, hence the mod 2^32.  The blocking aspect (the coprocessor drains
the queue concurrently) is not modelled; the occupancy effect of the CPU side
is the append. -/
def pio_sm_put (s : PioState) (w : Nat) : PioState :=
  { s with txQ := s.txQ ++ [w % 2 ^ 32] }

/-- Pull one word from the Rx FIFO (pio_sm_get_blocking); none when the FIFO
never receives a word, in which case the C call never returns. -/
def pio_sm_get (s : PioState) : Option (Nat × PioState) :=
  match s.rxQ with
  | [] => none
  | w :: rest => some (w % 2 ^ 32, { s with rxQ := rest })

/-- Embedding of oneWire_reset (OneWire.c lines 38-44). -/
def oneWire_reset (s : PioState) (wait : Bool) : Int × PioState :=
  if !wait && pio_sm_is_tx_fifo_full s then
    (ONE_WIRE_NOT_ENOUGH_TX_FIFO_SPACE, s)
  else
    (ONE_WIRE_NO_ERROR, pio_sm_put s 0x00000002)

/-- Embedding of oneWire_wait_for_idle (OneWire.c lines 50-56). -/
def oneWire_wait_for_idle (s : PioState) (wait : Bool) : Int × PioState :=
  if !wait && pio_sm_is_tx_fifo_full s then
    (ONE_WIRE_NOT_ENOUGH_TX_FIFO_SPACE, s)
  else
    (ONE_WIRE_NO_ERROR, pio_sm_put s 0x00000000)

/-- Embedding of oneWire_write_byte (OneWire.c lines 62-68); data is a
uint8_t. -/
def oneWire_write_byte (s : PioState) (data : Nat) (wait : Bool) : Int × PioState :=
  if !wait && pio_sm_is_tx_fifo_full s then
    (ONE_WIRE_NOT_ENOUGH_TX_FIFO_SPACE, s)
  else
    (ONE_WIRE_NO_ERROR, pio_sm_put s ((data <<< 6) + (7 <<< 2) + 0x03))

/-- Embedding of oneWire_write_uint (OneWire.c lines 74-80); data is a
uint16_t. -/
def oneWire_write_uint (s : PioState) (data : Nat) (wait : Bool) : Int × PioState :=
  if !wait && pio_sm_is_tx_fifo_full s then
    (ONE_WIRE_NOT_ENOUGH_TX_FIFO_SPACE, s)
  else
    (ONE_WIRE_NO_ERROR, pio_sm_put s ((data <<< 6) + (15 <<< 2) + 0x03))

/-- Embedding of oneWire_push_read_cmd (OneWire.c lines 87-91).  In C,
num_bits-1 << 2 parses as (num_bits-1) << 2. -/
def oneWire_push_read_cmd (s : PioState) (num_bits : Nat) : Int × PioState :=
  if num_bits > 32 || num_bits < 1 then
    (ONE_WIRE_ILLEGAL_DATA_SIZE_REQ, s)
  else
    (ONE_WIRE_NO_ERROR, pio_sm_put s (((num_bits - 1) <<< 2) + 1))

/-- Embedding of oneWire_pull_read_data (OneWire.c lines 99-102).  The source
stores the 32-bit FIFO word into a local of type oneWire_status, which is
uint16_t, so the word is truncated mod 2^16 before the right shift. -/
def oneWire_pull_read_data (s : PioState) (num_bits : Nat) : Option (Nat × PioState) :=
  match pio_sm_get s with
  | none => none
  | some (w, s') => some ((w % 2 ^ 16) >>> (32 - num_bits), s')

/-- Result of the oneWire_read_byte / _uint / _ulong functions.  status is
some r when a C return statement with value r executes, and none when control
falls off the end of the non-void function without a return; data is some v
when the out-pointer was written with v. -/
structure ReadResult where
  status : Option Int
  data : Option Nat
  st : PioState
deriving Repr, DecidableEq

/-- Embedding of oneWire_read_byte (OneWire.c lines 108-115).  On the success
path the C function executes *data = ... and then falls off the end without a
return statement. -/
def oneWire_read_byte (s : PioState) (wait : Bool) : Option ReadResult :=
  if !wait && pio_sm_is_tx_fifo_full s then
    some ⟨some ONE_WIRE_NOT_ENOUGH_TX_FIFO_SPACE, none, s⟩
  else
    match oneWire_push_read_cmd s 8 with
    | (r, s1) =>
      if r ≠ ONE_WIRE_NO_ERROR then some ⟨some r, none, s1⟩
      else
        match oneWire_pull_read_data s1 8 with
        | none => none
        | some (v, s2) => some ⟨none, some (v &&& 0xFF), s2⟩

/-- Embedding of oneWire_read_uint (OneWire.c lines 121-128); same missing
return on the success path. -/
def oneWire_read_uint (s : PioState) (wait : Bool) : Option ReadResult :=
  if !wait && pio_sm_is_tx_fifo_full s then
    some ⟨some ONE_WIRE_NOT_ENOUGH_TX_FIFO_SPACE, none, s⟩
  else
    match oneWire_push_read_cmd s 16 with
    | (r, s1) =>
      if r ≠ ONE_WIRE_NO_ERROR then some ⟨some r, none, s1⟩
      else
        match oneWire_pull_read_data s1 16 with
        | none => none
        | some (v, s2) => some ⟨none, some (v &&& 0xFFFF), s2⟩

/-- Embedding of oneWire_read_ulong (OneWire.c lines 134-141); same missing
return on the success path. -/
def oneWire_read_ulong (s : PioState) (wait : Bool) : Option ReadResult :=
  if !wait && pio_sm_is_tx_fifo_full s then
    some ⟨some ONE_WIRE_NOT_ENOUGH_TX_FIFO_SPACE, none, s⟩
  else
    match oneWire_push_read_cmd s 32 with
    | (r, s1) =>
      if r ≠ ONE_WIRE_NO_ERROR then some ⟨some r, none, s1⟩
      else
        match oneWire_pull_read_data s1 32 with
        | none => none
        | some (v, s2) => some ⟨none, some v, s2⟩

/-- One iteration of the inner bit loop of oneWire_CRC (OneWire.c lines
150-156): crc and t are uint8_t; the rotate crc >> 1 | crc << 7 is computed in
int and truncated back to uint8_t on assignment. -/
def crcBitStep (crc t : Nat) : Nat :=
  let c1 := crc ^^^ (t &&& 1)
  let pxor := if c1 &&& 1 ≠ 0 then 0x18 else 0
  let c2 := c1 ^^^ pxor
  ((c2 >>> 1) ||| (c2 <<< 7)) % 256

/-- The inner loop of oneWire_CRC: j iterations, shifting t right by one each
time. -/
def crcBits : Nat → Nat → Nat → Nat
  | 0, crc, _ => crc
  | j + 1, crc, t => crcBits j (crcBitStep crc t) (t >>> 1)

/-- Running CRC value of oneWire_CRC over a byte list (the outer loop, crc
starting at 0). -/
def crcRun (a : List Nat) : Nat :=
  a.foldl (fun crc t => crcBits 8 crc t) 0

/-- Embedding of oneWire_CRC (OneWire.c lines 146-160): the C function reads
a[0] .. a[len-1]. -/
def oneWire_CRC (a : List Nat) (len : Nat) : Int :=
  if crcRun (a.take len) ≠ 0 then ONE_WIRE_READ_CRC_FAILURE
  else ONE_WIRE_NO_ERROR

/-- The full-word push loop of oneWire_push_read_bytes_cmd (OneWire.c line
180-182): for (i = 0; i <= num-4; i += 4) push a 32-bit read command.  With C
int arithmetic and 0 ≤ i, num, the test i <= num-4 is i+4 ≤ num.  Returns the
state and the final value of i. -/
def pushFullReads (s : PioState) (num i : Nat) : PioState × Nat :=
  if i + 4 ≤ num then pushFullReads (pio_sm_put s ((31 <<< 2) + 1)) num (i + 4)
  else (s, i)
termination_by num - i
decreasing_by omega

/-- Embedding of oneWire_push_read_bytes_cmd (OneWire.c lines 172-188).  Note
the space check: num_pushes = num+3 is compared (in int arithmetic) against
ONE_WIRE_FIFODEPTH - level * 4, exactly as written in the source. -/
def oneWire_push_read_bytes_cmd (s : PioState) (num : Nat) (wait : Bool) : Int × PioState :=
  if num > 16 then (ONE_WIRE_POSSIBLE_FIFO_OVERFLOW, s)
  else
    -- num_pushes = num + 3, compared in int arithmetic
    if !wait && (num : Int) + 3 > (ONE_WIRE_FIFODEPTH : Int) - (pio_sm_get_tx_fifo_level s : Int) * 4 then
      (ONE_WIRE_NOT_ENOUGH_TX_FIFO_SPACE, s)
    else
      match pushFullReads s num 0 with
      | (s1, i) =>
        -- remainder = num - i
        if num - i > 0 then
          (ONE_WIRE_NO_ERROR, pio_sm_put s1 ((((num - i) * 8 - 1) <<< 2) + 1))
        else
          (ONE_WIRE_NO_ERROR, s1)

/-- Write the low k bytes of word w into buf at positions i .. i+k-1
(little-endian union access: byte k of w is (w >>> (8*k)) &&& 0xFF). -/
def writeBytes (buf : List Nat) (i : Nat) (w : Nat) : Nat → List Nat
  | 0 => buf
  | k + 1 => (writeBytes buf i w k).set (i + k) ((w >>> (8 * k)) &&& 0xFF)

/-- The full-word pull loop of oneWire_pull_read_bytes (OneWire.c lines
210-213): while i <= num-4, pull one word and store its 4 bytes.  none when a
blocking get never returns.  Returns state, buffer and the final i. -/
def pullFullReads (s : PioState) (buf : List Nat) (num i : Nat) :
    Option (PioState × List Nat × Nat) :=
  if i + 4 ≤ num then
    match pio_sm_get s with
    | none => none
    | some (w, s') => pullFullReads s' (writeBytes buf i w 4) num (i + 4)
  else some (s, buf, i)
termination_by num - i
decreasing_by omega

/-- Embedding of oneWire_pull_read_bytes (OneWire.c lines 199-221).  buf is
the caller's data[] array. -/
def oneWire_pull_read_bytes (s : PioState) (buf : List Nat) (num : Nat) (wait : Bool) :
    Option (Int × PioState × List Nat) :=
  if num > 16 then some (ONE_WIRE_ILLEGAL_DATA_SIZE_REQ, s, buf)
  else
    -- num_pullsx4 = num + 3, compared in int arithmetic against level * 4
    if !wait && (num : Int) + 3 > (pio_sm_get_rx_fifo_level s : Int) * 4 then
      some (ONE_WIRE_NOT_ENOUGH_DATA_IN_RX_FIFO, s, buf)
    else
      match pullFullReads s buf num 0 with
      | none => none
      | some (s1, buf1, i) =>
        -- remainder = num - i; the u.l >>= (32 - remainder*8) shift
        if num - i > 0 then
          match pio_sm_get s1 with
          | none => none
          | some (w, s2) =>
            some (oneWire_CRC (writeBytes buf1 i (w >>> (32 - (num - i) * 8)) (num - i)) num, s2,
                  writeBytes buf1 i (w >>> (32 - (num - i) * 8)) (num - i))
        else
          some (oneWire_CRC buf1 num, s1, buf1)

/-- Embedding of oneWire_read_bytes (OneWire.c lines 227-231). -/
def oneWire_read_bytes (s : PioState) (buf : List Nat) (num : Nat) :
    Option (Int × PioState × List Nat) :=
  match oneWire_push_read_bytes_cmd s num true with
  | (r, s1) =>
    if r ≠ ONE_WIRE_NO_ERROR then some (r, s1, buf)
    else oneWire_pull_read_bytes s1 buf num true

/-- Set bit b of x (x |= 1 << b). -/
def setBit (x b : Nat) : Nat := x ||| 2 ^ b

/-- Clear bit b of x (x &= ~(1 << b)), written as an xor when the bit is
set. -/
def clearBit (x b : Nat) : Nat := if x.testBit b then x ^^^ 2 ^ b else x

/-- Abstract OneWire bus as seen by the bit-banged search: whether a presence
pulse answers the reset that begins pass p, and the pair of bits returned by
the two read slots at the next position of pass p, as a function of the bits
the master has written so far in this pass (after the 0xF0 search-rom
command byte). -/
structure Bus where
  presence : Nat → Bool
  read2 : Nat → List Bool → Bool × Bool

/-- The 64-bit walk of one pass of oneWire_search_rom (OneWire.c lines
352-371), processing k more bit positions; the next position is
written.length.  Returns none on the wo1 = wo2 = true protocol violation
(ONE_WIRE_SEARCH_ROM_FAILURE), otherwise the updated (current, discrepancy)
pair. -/
def passBits (bus : Bus) (p : Nat) (written : List Bool) (cur dis : Nat) :
    Nat → Option (Nat × Nat)
  | 0 => some (cur, dis)
  | k + 1 =>
    let b := written.length
    match bus.read2 p written with
    | (wo1, wo2) =>
      if wo1 ≠ wo2 then
        passBits bus p (written ++ [wo1])
          (if wo1 then setBit cur b else clearBit cur b) (clearBit dis b) k
      else if wo1 = false then
        if dis.testBit b then
          passBits bus p (written ++ [cur.testBit b]) cur dis k
        else
          passBits bus p (written ++ [true]) (setBit cur b) (setBit dis b) k
      else none

/-- The discrepancy scan of oneWire_search_rom (OneWire.c lines 376-388):
for (bit = 63; bit >= 0; bit--); the argument n means the positions
n-1, ..., 0 remain to scan.  Returns (current, discrepancy, done) where done
is the bit < 0 loop exit (all discrepancies cleared). -/
def scanDiscrepancy (cur dis : Nat) : Nat → Nat × Nat × Bool
  | 0 => (cur, dis, true)
  | b + 1 =>
    if dis.testBit b then
      if cur.testBit b then (clearBit cur b, dis, false)
      else scanDiscrepancy cur (clearBit dis b) b
    else scanDiscrepancy cur dis b

/-- The while (!done) loop of oneWire_search_rom (OneWire.c lines 348-389).
devs is the prefix of the caller's devs array written so far; p counts the
passes begun so far (each loop iteration issues one reset and, when a
presence pulse answers, one 64-bit walk).  The result is (return value,
devs array contents, number of completed reset-and-64-bit-walk passes);
none when the given fuel is smaller than the number of loop iterations the
C code would run. -/
def searchLoop (bus : Bus) (devs : List Nat) (cur dis : Nat) (p : Nat) :
    Nat → Option (Int × List Nat × Nat)
  | 0 => none
  | fuel + 1 =>
    if bus.presence p = false then some (0, devs, p)
    else
      match passBits bus p [] cur dis 64 with
      | none => some (ONE_WIRE_SEARCH_ROM_FAILURE, devs, p + 1)
      | some (cur', dis') =>
        let devs' := devs ++ [cur']
        match scanDiscrepancy cur' dis' 64 with
        | (cur2, dis2, done) =>
          if done then some ((devs'.length : Int), devs', p + 1)
          else searchLoop bus devs' cur2 dis2 (p + 1) fuel

/-- Embedding of oneWire_search_rom (OneWire.c lines 342-391): nextdev = 0,
current = 0, discrepancy = 0. -/
def oneWire_search_rom (bus : Bus) (fuel : Nat) : Option (Int × List Nat × Nat) :=
  searchLoop bus [] 0 0 0 fuel

/-- Does device d match the bits written by the master so far, bit i of the
ROM code being compared against entry i of the written list? -/
def matchesPrefix (d : Nat) : List Bool → Nat → Bool
  | [], _ => true
  | w :: ws, i => (d.testBit i == w) && matchesPrefix d ws (i + 1)

/-- The static-device-set bus of claim C8: a presence pulse appears exactly
when some device is on the bus, and each read-bit pair is the wired-AND of
the remaining matching devices' bits and of their complements (an open-drain
bus reads 1 when no remaining device pulls it low). -/
def deviceBus (S : List Nat) : Bus where
  presence := fun _ => !S.isEmpty
  read2 := fun _ written =>
    let rem := S.filter (fun d => matchesPrefix d written 0)
    (rem.all (fun d => d.testBit written.length),
     rem.all (fun d => !d.testBit written.length))

/-- Number of branch points of the trie of the ROM codes in S on the bit
positions b, ..., b+depth-1 (bit b at the root, i.e. bits in the order the
search walks them): a node is a branch point when both its 0-subtree and its
1-subtree contain a device. -/
def branchCount (S : List Nat) (b : Nat) : Nat → Nat
  | 0 => 0
  | depth + 1 =>
    let S0 := S.filter (fun d => !d.testBit b)
    let S1 := S.filter (fun d => d.testBit b)
    if S0.length > 0 && S1.length > 0 then
      1 + branchCount S0 (b + 1) depth + branchCount S1 (b + 1) depth
    else if S0.length > 0 then branchCount S0 (b + 1) depth
    else branchCount S1 (b + 1) depth

/-- Reference definition following the spec's words (refinement claim C7),
to be compared with the source's oneWire_CRC: one input bit is processed by
exclusive-oring it into the running checksum's low bit, exclusive-oring in
0x18 when the resulting low bit is set, then rotating the 8-bit checksum
right by one. -/
def specCRC_bit (c : Nat) (bit : Bool) : Nat :=
  let c1 := if bit then c ^^^ 1 else c
  let c2 := if c1 % 2 = 1 then c1 ^^^ 0x18 else c1
  c2 / 2 + c2 % 2 * 128

/-- Reference byte step: the eight bits of the byte, least-significant
first. -/
def specCRC_byte (c t : Nat) : Nat :=
  (List.range 8).foldl (fun acc j => specCRC_bit acc (t.testBit j)) c

/-- Reference running CRC-8 over a byte list, starting from zero. -/
def specCRC_run (a : List Nat) : Nat :=
  a.foldl specCRC_byte 0

/-- Little-endian packing of a byte list into a number (byte 0 is the least
significant). -/
def packLE : List Nat → Nat
  | [] => 0
  | b :: bs => b % 256 + 256 * packLE bs

/-- Response-queue encoding of a byte block as the PIO state machine would
deliver it: one little-endian word per full 4-byte chunk, and a final
partial chunk left-justified in its word (the data sits in the top bits, as
oneWire_pull_read_bytes expects when it shifts by 32 - remainder*8). -/
def encodeResp : List Nat → List Nat
  | [] => []
  | b0 :: b1 :: b2 :: b3 :: rest => packLE [b0, b1, b2, b3] :: encodeResp rest
  | rest => [packLE rest <<< (32 - 8 * rest.length)]

/-- The byte stream denoted by a word list under the little-endian union
access of oneWire_pull_read_bytes. -/
def wordBytesLE (w : Nat) : List Nat :=
  (List.range 4).map (fun j => (w >>> (8 * j)) &&& 0xFF)

def bytesOfWords : List Nat → List Nat
  | [] => []
  | w :: ws => wordBytesLE (w % 2 ^ 32) ++ bytesOfWords ws

/-- The word-by-word buffer filling of the full-word pull loop. -/
def writeWords (buf : List Nat) (i : Nat) : List Nat → List Nat
  | [] => buf
  | w :: ws => writeWords (writeBytes buf i (w % 2 ^ 32) 4) (i + 4) ws


/-- A bus whose presence pulse appears only on pass 0 and which reads all-ones
pairs; used to exercise a presence failure on a later pass. -/
def presenceOnceBus : Bus where
  presence := fun p => decide (p = 0)
  read2 := fun _ _ => (true, false)

/-- Bits 0 .. b-1 of c, as the list of bits the search master has written. -/
def lowBits (c b : Nat) : List Bool := (List.range b).map c.testBit

/-- d and e agree on every bit position below b. -/
def sameLow (d e b : Nat) : Prop := ∀ j, j < b → d.testBit j = e.testBit j

/-- Among the devices of S matching c's low b bits, both bit values occur at
position b (a branch point of the ROM-code trie). -/
def collision (S : List Nat) (c b : Nat) : Prop :=
  (∃ d ∈ S, sameLow d c b ∧ d.testBit b = true) ∧
  (∃ d ∈ S, sameLow d c b ∧ d.testBit b = false)

/-- Numeric key of bits b .. b+k-1 of d, bit b most significant: the order in
which the search walks the trie. -/
def revTail (d b : Nat) : Nat → Nat
  | 0 => 0
  | k + 1 => (if d.testBit b then 2 ^ k else 0) + revTail d (b + 1) k

/-- Bit-reversed 64-bit value of d: devices are discovered in decreasing
revKey order. -/
def revKey (d : Nat) : Nat := revTail d 0 64

/-- Loop-head invariant of the search: either the very first pass (all state
zero, every device still to be found), or the state left by a scan: position
m was the deepest branch point of the last found device r = setBit cur m
whose 1-branch is exhausted, the flags at collisions below m steer the
re-follow, no flags remain above m, and the devices still to be found are
exactly those with revKey below revKey r. -/
def SearchInv (S : List Nat) (cur dis : Nat) (U : List Nat) : Prop :=
  (cur = 0 ∧ dis = 0 ∧ U = S) ∨
  (∃ m, m < 64 ∧ cur.testBit m = false ∧
    (∀ q, m < q → dis.testBit q = false) ∧
    (∀ q, q ≤ m → collision S cur q → dis.testBit q = true) ∧
    setBit cur m ∈ S ∧
    (∃ d ∈ S, sameLow d cur (m + 1)) ∧
    (∀ q, m < q → q < 64 → collision S (setBit cur m) q →
      (setBit cur m).testBit q = false) ∧
    (∀ d ∈ S, d ∈ U ↔ revKey d < revKey (setBit cur m)))

/-! ## Claim C1: oneWire_pull_read_data -/

/-- C1: the claim states that for every num_bits in 1..32 and every 32-bit
response word w, oneWire_pull_read_data returns w >>> (32 - num_bits), the top
num_bits bits right-justified.  The code stores the word into a uint16_t
(oneWire_status) local before shifting, so for the word 0xAB000000 with
num_bits = 8 it returns 0 instead of 0xAB: the claim fails on the code,
although it matches the documented intent (the comments say the function
returns the data in the FIFO).  This theorem exhibits the failing input. -/
theorem pull_read_data_truncates_code_bug :
    oneWire_pull_read_data ⟨[], [0xAB000000]⟩ 8 = some (0, ⟨[], []⟩) ∧
    0xAB000000 >>> (32 - 8) = 0xAB ∧ (0 : Nat) ≠ 0xAB := by
  refine ⟨?_, by decide, by decide⟩
  rfl

/-! ## Claim C2: oneWire_push_read_bytes_cmd space check -/

/-- C2: the claim states that with wait=false the call fails with
NotEnoughTxFifoSpace iff the words it needs, ceil(num/4), exceed the free
word slots of the 4-deep Tx FIFO, so in particular it succeeds on an empty
queue.  The code compares num+3 against ONE_WIRE_FIFODEPTH - level * 4
(instead of (ONE_WIRE_FIFODEPTH - level) * 4, the parenthesisation the check
requires), so with num = 2 and an empty Tx FIFO it returns
NotEnoughTxFifoSpace even though only ceil(2/4) = 1 of the 4 free word slots
is needed.  This theorem exhibits the failing input. -/
theorem push_read_bytes_cmd_space_check_code_bug :
    oneWire_push_read_bytes_cmd ⟨[], []⟩ 2 false =
      (ONE_WIRE_NOT_ENOUGH_TX_FIFO_SPACE, ⟨[], []⟩) ∧
    (2 + 3) / 4 ≤ ONE_WIRE_FIFODEPTH - pio_sm_get_tx_fifo_level ⟨[], []⟩ := by
  exact ⟨by rfl, by decide⟩

/-! ## Claim C3: status 0 on the success paths of the read functions -/

/-- C3: the claim states that oneWire_read_byte, oneWire_read_uint and
oneWire_read_ulong return status 0 on their success paths (as their comments
document).  In the code all three functions write the out-pointer and then
fall off the end of a non-void function without executing any return
statement (modelled as status = none), so no status 0 is returned.  This
theorem evaluates the three functions on success-path inputs: in each case
the status field is none, not some 0. -/
theorem read_byte_uint_ulong_missing_return_code_bug :
    oneWire_read_byte ⟨[], [0xFF000000]⟩ true =
      some ⟨none, some 0, ⟨[29], []⟩⟩ ∧
    oneWire_read_uint ⟨[], [0xFFFF0000]⟩ true =
      some ⟨none, some 0, ⟨[61], []⟩⟩ ∧
    oneWire_read_ulong ⟨[], [0x00012345]⟩ true =
      some ⟨none, some 0x2345, ⟨[125], []⟩⟩ ∧
    (none : Option Int) ≠ some ONE_WIRE_NO_ERROR := by
  exact ⟨by rfl, by rfl, by rfl, by decide⟩

/-! ## Claim C4: non-blocking resource-exhaustion errors leave state unchanged -/

/-- C4: for each of the six operations called with wait = false, a
NotEnoughTxFifoSpace / NotEnoughDataInRxFifo return leaves the occupancy of
both queues exactly as it was and writes no byte of the caller's buffer. -/
theorem nonblocking_error_leaves_state_unchanged (s : PioState) (data num : Nat)
    (buf : List Nat) :
    ((oneWire_reset s false).1 = ONE_WIRE_NOT_ENOUGH_TX_FIFO_SPACE →
      (oneWire_reset s false).2 = s) ∧
    ((oneWire_wait_for_idle s false).1 = ONE_WIRE_NOT_ENOUGH_TX_FIFO_SPACE →
      (oneWire_wait_for_idle s false).2 = s) ∧
    ((oneWire_write_byte s data false).1 = ONE_WIRE_NOT_ENOUGH_TX_FIFO_SPACE →
      (oneWire_write_byte s data false).2 = s) ∧
    ((oneWire_write_uint s data false).1 = ONE_WIRE_NOT_ENOUGH_TX_FIFO_SPACE →
      (oneWire_write_uint s data false).2 = s) ∧
    ((oneWire_push_read_bytes_cmd s num false).1 = ONE_WIRE_NOT_ENOUGH_TX_FIFO_SPACE →
      (oneWire_push_read_bytes_cmd s num false).2 = s) ∧
    (∀ r s' buf', oneWire_pull_read_bytes s buf num false = some (r, s', buf') →
      r = ONE_WIRE_NOT_ENOUGH_DATA_IN_RX_FIFO → s' = s ∧ buf' = buf) := by
  refine ⟨?_, ?_, ?_, ?_, ?_, ?_⟩
  · unfold oneWire_reset
    split
    · intro _; rfl
    · intro h
      simp [ONE_WIRE_NO_ERROR, ONE_WIRE_NOT_ENOUGH_TX_FIFO_SPACE] at h
  · unfold oneWire_wait_for_idle
    split
    · intro _; rfl
    · intro h
      simp [ONE_WIRE_NO_ERROR, ONE_WIRE_NOT_ENOUGH_TX_FIFO_SPACE] at h
  · unfold oneWire_write_byte
    split
    · intro _; rfl
    · intro h
      simp [ONE_WIRE_NO_ERROR, ONE_WIRE_NOT_ENOUGH_TX_FIFO_SPACE] at h
  · unfold oneWire_write_uint
    split
    · intro _; rfl
    · intro h
      simp [ONE_WIRE_NO_ERROR, ONE_WIRE_NOT_ENOUGH_TX_FIFO_SPACE] at h
  · unfold oneWire_push_read_bytes_cmd
    split
    · intro h
      simp [ONE_WIRE_POSSIBLE_FIFO_OVERFLOW, ONE_WIRE_NOT_ENOUGH_TX_FIFO_SPACE] at h
    · split
      · intro _; rfl
      · split
        split
        · intro h
          simp [ONE_WIRE_NO_ERROR, ONE_WIRE_NOT_ENOUGH_TX_FIFO_SPACE] at h
        · intro h
          simp [ONE_WIRE_NO_ERROR, ONE_WIRE_NOT_ENOUGH_TX_FIFO_SPACE] at h
  · intro r s' buf' heq hr
    subst hr
    unfold oneWire_pull_read_bytes at heq
    split at heq
    · simp only [Option.some_inj, Prod.mk.injEq] at heq
      have := heq.1
      simp [ONE_WIRE_ILLEGAL_DATA_SIZE_REQ, ONE_WIRE_NOT_ENOUGH_DATA_IN_RX_FIFO] at this
    · split at heq
      · simp only [Option.some_inj, Prod.mk.injEq] at heq
        exact ⟨heq.2.1.symm, heq.2.2.symm⟩
      · -- the remaining paths return a CRC status (0 or -4), never the Rx error
        exfalso
        split at heq
        · exact Option.noConfusion heq
        · split at heq
          · split at heq
            · exact Option.noConfusion heq
            · simp only [Option.some_inj, Prod.mk.injEq] at heq
              have hcrc := heq.1
              unfold oneWire_CRC at hcrc
              split at hcrc <;>
                simp [ONE_WIRE_READ_CRC_FAILURE, ONE_WIRE_NO_ERROR,
                  ONE_WIRE_NOT_ENOUGH_DATA_IN_RX_FIFO] at hcrc
          · simp only [Option.some_inj, Prod.mk.injEq] at heq
            have hcrc := heq.1
            unfold oneWire_CRC at hcrc
            split at hcrc <;>
              simp [ONE_WIRE_READ_CRC_FAILURE, ONE_WIRE_NO_ERROR,
                ONE_WIRE_NOT_ENOUGH_DATA_IN_RX_FIFO] at hcrc

/-- Witness for C4 at a concrete state: Tx FIFO full (4 words), Rx FIFO
empty, so every wait=false call errors and leaves the state untouched. -/
theorem nonblocking_error_leaves_state_unchanged_witness :
    ((oneWire_reset ⟨[2, 2, 2, 2], []⟩ false).2 = ⟨[2, 2, 2, 2], []⟩) ∧
    (∀ r s' buf', oneWire_pull_read_bytes ⟨[2, 2, 2, 2], []⟩ [7, 7] 2 false =
        some (r, s', buf') →
      r = ONE_WIRE_NOT_ENOUGH_DATA_IN_RX_FIFO → s' = ⟨[2, 2, 2, 2], []⟩ ∧ buf' = [7, 7]) := by
  have h := nonblocking_error_leaves_state_unchanged ⟨[2, 2, 2, 2], []⟩ 0 2 [7, 7]
  exact ⟨h.1 (by decide), h.2.2.2.2.2⟩

/-! ## Claim C6: exact command words pushed by oneWire_push_read_bytes_cmd -/

/-- Characterization of the full-word push loop: with k full iterations left
(i + 4k ≤ num < i + 4(k+1)) it appends k copies of the 32-bit read command
word ((32-1) << 2) + 1 = 125 and stops with i advanced by 4k. -/
theorem pushFullReads_eq (k : Nat) : ∀ (s : PioState) (num i : Nat),
    i + 4 * k ≤ num → num < i + 4 * (k + 1) →
    pushFullReads s num i =
      ({ s with txQ := s.txQ ++ List.replicate k 125 }, i + 4 * k) := by
  induction k with
  | zero =>
    intro s num i h1 h2
    unfold pushFullReads
    rw [if_neg (by omega)]
    simp
  | succ k ih =>
    intro s num i h1 h2
    unfold pushFullReads
    rw [if_pos (by omega)]
    rw [ih (pio_sm_put s ((31 <<< 2) + 1)) num (i + 4) (by omega) (by omega)]
    refine Prod.ext ?_ (by simp; omega)
    simp [pio_sm_put, List.replicate_succ]

/-- C6: for every byte count num with 1 ≤ num ≤ 16, the blocking
oneWire_push_read_bytes_cmd (as called by oneWire_read_bytes) succeeds and
pushes exactly floor(num/4) read commands of 32 bits each, followed, when
num mod 4 is nonzero, by one read command of exactly (num mod 4) * 8 bits;
the total number of pushed words is ceil(num/4). -/
theorem push_read_bytes_cmd_words (s : PioState) (num : Nat)
    (h1 : 1 ≤ num) (h16 : num ≤ 16) :
    oneWire_push_read_bytes_cmd s num true =
      (ONE_WIRE_NO_ERROR,
       { s with txQ := s.txQ ++ List.replicate (num / 4) (((32 - 1) <<< 2) + 1) ++
          (if num % 4 ≠ 0 then [(((num % 4) * 8 - 1) <<< 2) + 1] else []) }) ∧
    num / 4 + (if num % 4 ≠ 0 then 1 else 0) = (num + 3) / 4 := by
  constructor
  · unfold oneWire_push_read_bytes_cmd
    rw [if_neg (by omega)]
    rw [if_neg (by simp)]
    rw [pushFullReads_eq (num / 4) s num 0 (by omega) (by omega)]
    have hrem : num - (0 + 4 * (num / 4)) = num % 4 := by omega
    dsimp only
    rw [hrem]
    by_cases h4 : num % 4 > 0
    · rw [if_pos h4]
      have : (((num % 4) * 8 - 1) <<< 2) + 1 < 2 ^ 32 := by
        have := Nat.mod_lt num (show 0 < 4 by omega)
        simp only [Nat.shiftLeft_eq]
        omega
      simp only [pio_sm_put, Nat.mod_eq_of_lt this]
      rw [if_pos (by omega)]
      simp
    · rw [if_neg h4]
      rw [if_neg (by omega)]
      have h0 : num % 4 = 0 := by omega
      simp [h0]
  · by_cases h4 : num % 4 = 0
    · simp only [h4, ne_eq, not_true_eq_false, if_false]
      omega
    · simp only [ne_eq, h4, not_false_eq_true, if_true]
      omega

/-- Witness for C6 at num = 7 on empty FIFOs: one 32-bit read command then
one 24-bit read command, 2 = ceil(7/4) words in total. -/
theorem push_read_bytes_cmd_words_witness :
    oneWire_push_read_bytes_cmd ⟨[], []⟩ 7 true =
      (ONE_WIRE_NO_ERROR,
       { txQ := [] ++ List.replicate (7 / 4) (((32 - 1) <<< 2) + 1) ++
          (if 7 % 4 ≠ 0 then [(((7 % 4) * 8 - 1) <<< 2) + 1] else []), rxQ := [] }) ∧
    7 / 4 + (if 7 % 4 ≠ 0 then 1 else 0) = (7 + 3) / 4 :=
  push_read_bytes_cmd_words ⟨[], []⟩ 7 (by decide) (by decide)

/-! ## Claim C7: oneWire_CRC against the spec's reference CRC-8 -/


theorem crcBitStep_lt (c t : Nat) : crcBitStep c t < 256 := by
  unfold crcBitStep
  exact Nat.mod_lt _ (by omega)

theorem crcBits_lt (k : Nat) : ∀ c t, c < 256 → crcBits k c t < 256 := by
  induction k with
  | zero => intro c t h; exact h
  | succ k ih => intro c t h; exact ih _ _ (crcBitStep_lt c t)

set_option maxRecDepth 2048 in
/-- Exhaustive check of one CRC bit step against the spec's wording, over all
256 checksum states and both input bit values. -/
theorem crcBitStep_bit_cases :
    ∀ c, c < 256 → crcBitStep c 0 = specCRC_bit c false ∧
      crcBitStep c 1 = specCRC_bit c true := by decide

/-- One bit of the code's CRC agrees with one bit of the spec's CRC. -/
theorem crcBitStep_eq_specCRC_bit (c t : Nat) (hc : c < 256) :
    crcBitStep c t = specCRC_bit c (t.testBit 0) := by
  have hand : t &&& 1 = if t.testBit 0 then 1 else 0 := by
    rw [Nat.and_one_is_mod]
    by_cases h : t % 2 = 1
    · simp [Nat.testBit_zero, h]
    · have h0 : t % 2 = 0 := by omega
      simp [Nat.testBit_zero, h, h0]
  have hstep : crcBitStep c t = crcBitStep c (if t.testBit 0 then 1 else 0) := by
    unfold crcBitStep
    rw [hand]
    rcases t.testBit 0 <;> rfl
  rw [hstep]
  rcases htb : t.testBit 0
  · simpa using (crcBitStep_bit_cases c hc).1
  · simpa using (crcBitStep_bit_cases c hc).2

/-- The code's inner 8-bit loop agrees with the spec's byte step. -/
theorem crcBits_eq_fold (k : Nat) : ∀ c t, c < 256 →
    crcBits k c t = (List.range k).foldl (fun acc j => specCRC_bit acc (t.testBit j)) c := by
  induction k with
  | zero => intro c t _; rfl
  | succ k ih =>
    intro c t hc
    show crcBits k (crcBitStep c t) (t >>> 1) = _
    rw [List.range_succ_eq_map]
    rw [List.foldl_cons, List.foldl_map]
    rw [ih (crcBitStep c t) (t >>> 1) (crcBitStep_lt c t)]
    rw [crcBitStep_eq_specCRC_bit c t hc]
    have h1 : (fun (acc j : Nat) => specCRC_bit acc ((t >>> 1).testBit j)) =
        (fun (acc j : Nat) => specCRC_bit acc (t.testBit (Nat.succ j))) := by
      funext acc j
      rw [Nat.testBit_shiftRight, Nat.succ_eq_add_one, Nat.add_comm 1 j]
    rw [h1]

theorem crcBits8_eq_specCRC_byte (c t : Nat) (hc : c < 256) :
    crcBits 8 c t = specCRC_byte c t :=
  crcBits_eq_fold 8 c t hc

/-- The code's running CRC agrees with the spec's running CRC. -/
theorem crcRun_eq_specCRC_run (a : List Nat) : crcRun a = specCRC_run a := by
  unfold crcRun specCRC_run
  have main : ∀ (l : List Nat) (c : Nat), c < 256 →
      l.foldl (fun crc t => crcBits 8 crc t) c = l.foldl specCRC_byte c := by
    intro l
    induction l with
    | nil => intro c _; rfl
    | cons x xs ih =>
      intro c hc
      simp only [List.foldl_cons]
      rw [crcBits8_eq_specCRC_byte c x hc]
      exact ih _ (crcBits8_eq_specCRC_byte c x hc ▸ crcBits_lt 8 c x hc)
  exact main a 0 (by omega)

/-- C7: oneWire_CRC(a, len) computes the spec's reference CRC-8 over the len
bytes it reads, returns 0 exactly when the final running value is zero, and
ReadCrcFailure otherwise. -/
theorem oneWire_CRC_matches_spec (a : List Nat) (len : Nat) :
    crcRun (a.take len) = specCRC_run (a.take len) ∧
    (oneWire_CRC a len = ONE_WIRE_NO_ERROR ↔ specCRC_run (a.take len) = 0) ∧
    (oneWire_CRC a len = ONE_WIRE_READ_CRC_FAILURE ↔ specCRC_run (a.take len) ≠ 0) := by
  have he := crcRun_eq_specCRC_run (a.take len)
  refine ⟨he, ?_, ?_⟩ <;>
  · unfold oneWire_CRC
    rw [he]
    split <;>
      simp_all [ONE_WIRE_NO_ERROR, ONE_WIRE_READ_CRC_FAILURE]

/-! ## Claim C5: CRC iff and round trip through oneWire_read_bytes -/

set_option maxRecDepth 2048 in
/-- Feeding the current CRC value into the CRC-8 as the next byte always
returns the running value to zero (checked over all 256 states). -/
theorem crcBits8_self : ∀ c, c < 256 → crcBits 8 c c = 0 := by decide

theorem crcRun_lt (a : List Nat) : crcRun a < 256 := by
  unfold crcRun
  have main : ∀ (l : List Nat) (c : Nat), c < 256 →
      l.foldl (fun crc t => crcBits 8 crc t) c < 256 := by
    intro l
    induction l with
    | nil => intro c hc; exact hc
    | cons x xs ih => intro c hc; exact ih _ (crcBits_lt 8 c x hc)
  exact main a 0 (by omega)

/-- Appending the running CRC-8 of a block to the block itself drives the
running value to zero. -/
theorem crcRun_append_self (bs : List Nat) : crcRun (bs ++ [crcRun bs]) = 0 := by
  unfold crcRun
  rw [List.foldl_append]
  exact crcBits8_self _ (crcRun_lt bs)

theorem and_255_eq_mod (x : Nat) : x &&& 0xFF = x % 256 := by
  have h := Nat.and_pow_two_sub_one_eq_mod x 8
  norm_num at h
  exact h

theorem packLE_lt (cs : List Nat) : packLE cs < 2 ^ (8 * cs.length) := by
  induction cs with
  | nil => simp [packLE]
  | cons b bs ih =>
    unfold packLE
    have hb : b % 256 < 256 := Nat.mod_lt _ (by omega)
    have h2 : 2 ^ (8 * (bs.length + 1)) = 256 * 2 ^ (8 * bs.length) := by
      rw [Nat.mul_add, Nat.pow_add]
      ring
    simp only [List.length_cons, h2]
    omega

theorem packLE_shift (b : Nat) (bs : List Nat) :
    packLE (b :: bs) >>> 8 = packLE bs := by
  show (b % 256 + 256 * packLE bs) >>> 8 = packLE bs
  rw [Nat.shiftRight_eq_div_pow]
  have h28 : (2 : Nat) ^ 8 = 256 := by norm_num
  rw [h28]
  omega

/-- Unpacking a packed byte list recovers the bytes. -/
theorem map_packLE (cs : List Nat) (hb : ∀ b ∈ cs, b < 256) :
    (List.range cs.length).map (fun j => (packLE cs >>> (8 * j)) &&& 0xFF) = cs := by
  induction cs with
  | nil => rfl
  | cons b bs ih =>
    simp only [List.length_cons]
    rw [List.range_succ_eq_map, List.map_cons, List.map_map]
    rw [List.cons.injEq]
    refine ⟨?_, ?_⟩
    · show (packLE (b :: bs) >>> (8 * 0)) &&& 0xFF = b
      rw [Nat.mul_zero, Nat.shiftRight_zero, and_255_eq_mod]
      show (b % 256 + 256 * packLE bs) % 256 = b
      have hblt := hb b (by simp)
      omega
    · have hfn : ((fun j => (packLE (b :: bs) >>> (8 * j)) &&& 0xFF) ∘ Nat.succ) =
          (fun j => (packLE bs >>> (8 * j)) &&& 0xFF) := by
        funext j
        show (packLE (b :: bs) >>> (8 * (j + 1))) &&& 0xFF = _
        have : 8 * (j + 1) = 8 + 8 * j := by ring
        rw [this, Nat.shiftRight_add, packLE_shift]
      rw [hfn, ih (fun x hx => hb x (by simp [hx]))]

theorem length_writeBytes (k : Nat) : ∀ (buf : List Nat) (i w : Nat),
    (writeBytes buf i w k).length = buf.length := by
  induction k with
  | zero => intro buf i w; rfl
  | succ k ih =>
    intro buf i w
    show ((writeBytes buf i w k).set (i + k) _).length = _
    rw [List.length_set, ih]

/-- Structure of the byte-store loop: it replaces the k entries at positions
i .. i+k-1 with the low k bytes of w. -/
theorem writeBytes_eq (k : Nat) : ∀ (buf : List Nat) (i w : Nat), i + k ≤ buf.length →
    writeBytes buf i w k =
      buf.take i ++ (List.range k).map (fun j => (w >>> (8 * j)) &&& 0xFF) ++
        buf.drop (i + k) := by
  induction k with
  | zero =>
    intro buf i w h
    show buf = _
    simp
  | succ k ih =>
    intro buf i w h
    show (writeBytes buf i w k).set (i + k) ((w >>> (8 * k)) &&& 0xFF) = _
    rw [ih buf i w (by omega)]
    have hlt : i + k < buf.length := by omega
    have htk : (buf.take i).length = i := by
      rw [List.length_take]
      omega
    have hmap : ((List.range k).map (fun j => (w >>> (8 * j)) &&& 0xFF)).length = k := by
      simp
    have hTM : (buf.take i ++ (List.range k).map (fun j => (w >>> (8 * j)) &&& 0xFF)).length =
        i + k := by
      rw [List.length_append, htk, hmap]
    rw [List.set_append_right _ _ (by rw [hTM])]
    rw [hTM]
    have hidx : i + k - (i + k) = 0 := by omega
    rw [hidx]
    rw [List.drop_eq_getElem_cons hlt, List.set_cons_zero]
    rw [List.range_succ, List.map_append]
    simp [List.append_assoc, Nat.add_assoc]

/-- Structure of the full-word pull loop's buffer writes: the words ws are
laid down as their bytes at positions i .. i + 4*|ws| - 1. -/
theorem writeWords_eq (ws : List Nat) : ∀ (buf : List Nat) (i : Nat),
    i + 4 * ws.length ≤ buf.length →
    writeWords buf i ws =
      buf.take i ++ bytesOfWords ws ++ buf.drop (i + 4 * ws.length) := by
  induction ws with
  | nil =>
    intro buf i h
    show buf = _
    simp [bytesOfWords]
  | cons w ws ih =>
    intro buf i h
    have h' : i + 4 + 4 * ws.length ≤ buf.length := by
      simp only [List.length_cons] at h
      omega
    show writeWords (writeBytes buf i (w % 2 ^ 32) 4) (i + 4) ws = _
    have hlen := length_writeBytes 4 buf i (w % 2 ^ 32)
    rw [ih _ (i + 4) (by rw [hlen]; omega)]
    have hB : writeBytes buf i (w % 2 ^ 32) 4 =
        (buf.take i ++ wordBytesLE (w % 2 ^ 32)) ++ buf.drop (i + 4) := by
      rw [writeBytes_eq 4 buf i _ (by omega)]
      rfl
    rw [hB]
    have hTW : (buf.take i ++ wordBytesLE (w % 2 ^ 32)).length = i + 4 := by
      rw [List.length_append, List.length_take]
      simp only [wordBytesLE, List.length_map, List.length_range]
      omega
    rw [List.take_left' hTW]
    have hD : ((buf.take i ++ wordBytesLE (w % 2 ^ 32)) ++ buf.drop (i + 4)).drop
        (i + 4 + 4 * ws.length) = buf.drop (i + 4 * (ws.length + 1)) := by
      rw [← List.drop_drop]
      rw [List.drop_left' hTW]
      rw [List.drop_drop]
      congr 1
      omega
    rw [hD]
    simp [bytesOfWords, List.append_assoc]

theorem wordBytesLE_packLE (cs : List Nat) (h4 : cs.length = 4)
    (hb : ∀ b ∈ cs, b < 256) : wordBytesLE (packLE cs % 2 ^ 32) = cs := by
  have hlt : packLE cs < 2 ^ 32 := by
    have h := packLE_lt cs
    rw [h4] at h
    norm_num at h
    exact h
  rw [Nat.mod_eq_of_lt hlt]
  unfold wordBytesLE
  rw [← h4]
  exact map_packLE cs hb

/-- Decoding the encoded words of a whole-chunk block recovers the block. -/
theorem bytesOfWords_encodeResp : ∀ (n : Nat) (cs : List Nat), cs.length ≤ n →
    (∀ b ∈ cs, b < 256) → cs.length % 4 = 0 →
    bytesOfWords (encodeResp cs) = cs := by
  intro n
  induction n using Nat.strong_induction_on with
  | _ n ih =>
    intro cs hlen hb h4
    rcases cs with _ | ⟨b0, _ | ⟨b1, _ | ⟨b2, _ | ⟨b3, rest⟩⟩⟩⟩
    · rfl
    · simp at h4
    · simp at h4
    · simp at h4
    · show wordBytesLE (packLE [b0, b1, b2, b3] % 2 ^ 32) ++ bytesOfWords (encodeResp rest) = _
      have hb4 : ∀ b ∈ [b0, b1, b2, b3], b < 256 := by
        intro b hbm
        apply hb
        simp at hbm ⊢
        tauto
      rw [wordBytesLE_packLE [b0, b1, b2, b3] rfl hb4]
      simp only [List.length_cons] at hlen h4
      have hrest : bytesOfWords (encodeResp rest) = rest := by
        apply ih rest.length (by omega) rest (by omega)
        · intro b hbm
          apply hb
          simp [hbm]
        · omega
      rw [hrest]
      rfl

theorem length_encodeResp_mod4 : ∀ (n : Nat) (cs : List Nat), cs.length ≤ n →
    cs.length % 4 = 0 → (encodeResp cs).length = cs.length / 4 := by
  intro n
  induction n using Nat.strong_induction_on with
  | _ n ih =>
    intro cs hlen h4
    rcases cs with _ | ⟨b0, _ | ⟨b1, _ | ⟨b2, _ | ⟨b3, rest⟩⟩⟩⟩
    · rfl
    · simp at h4
    · simp at h4
    · simp at h4
    · show (packLE [b0, b1, b2, b3] :: encodeResp rest).length = _
      simp only [List.length_cons] at hlen h4 ⊢
      rw [ih rest.length (by omega) rest (by omega) (by omega)]
      omega

/-- Shape of the encoding when the block has a partial final chunk: full-chunk
words followed by one left-justified remainder word. -/
theorem encodeResp_split : ∀ (n : Nat) (cs : List Nat), cs.length ≤ n →
    cs.length % 4 ≠ 0 →
    encodeResp cs = encodeResp (cs.take (4 * (cs.length / 4))) ++
      [packLE (cs.drop (4 * (cs.length / 4))) <<< (32 - 8 * (cs.length % 4))] := by
  intro n
  induction n using Nat.strong_induction_on with
  | _ n ih =>
    intro cs hlen h4
    rcases cs with _ | ⟨b0, _ | ⟨b1, _ | ⟨b2, _ | ⟨b3, rest⟩⟩⟩⟩
    · simp at h4
    · norm_num [encodeResp]
    · norm_num [encodeResp]
    · norm_num [encodeResp]
    · show packLE [b0, b1, b2, b3] :: encodeResp rest = _
      simp only [List.length_cons] at hlen h4 ⊢
      have hdiv : 4 * ((rest.length + 1 + 1 + 1 + 1) / 4) = 4 * (rest.length / 4) + 4 := by
        omega
      have hmod : (rest.length + 1 + 1 + 1 + 1) % 4 = rest.length % 4 := by omega
      rw [hdiv, hmod]
      have htake : (b0 :: b1 :: b2 :: b3 :: rest).take (4 * (rest.length / 4) + 4) =
          b0 :: b1 :: b2 :: b3 :: rest.take (4 * (rest.length / 4)) := by
        rw [show 4 * (rest.length / 4) + 4 =
          (((4 * (rest.length / 4) + 1) + 1) + 1) + 1 by omega]
        simp [List.take_succ_cons]
      have hdrop : (b0 :: b1 :: b2 :: b3 :: rest).drop (4 * (rest.length / 4) + 4) =
          rest.drop (4 * (rest.length / 4)) := by
        rw [show 4 * (rest.length / 4) + 4 =
          (((4 * (rest.length / 4) + 1) + 1) + 1) + 1 by omega]
        simp [List.drop_succ_cons]
      rw [htake, hdrop]
      rw [ih rest.length (by omega) rest (by omega) (by omega)]
      simp [encodeResp]

/-- Characterization of the full-word pull loop: with k full iterations left
it consumes k response words and writes their bytes at positions i onward. -/
theorem pullFullReads_eq (k : Nat) : ∀ (s : PioState) (buf : List Nat) (num i : Nat),
    i + 4 * k ≤ num → num < i + 4 * (k + 1) → k ≤ s.rxQ.length →
    pullFullReads s buf num i =
      some (⟨s.txQ, s.rxQ.drop k⟩, writeWords buf i (s.rxQ.take k), i + 4 * k) := by
  induction k with
  | zero =>
    intro s buf num i h1 h2 h3
    unfold pullFullReads
    rw [if_neg (by omega)]
    simp [writeWords]
  | succ k ih =>
    intro s buf num i h1 h2 h3
    unfold pullFullReads
    rw [if_pos (by omega)]
    cases hq : s.rxQ with
    | nil => rw [hq] at h3; simp at h3
    | cons w rest =>
      have hget : pio_sm_get s = some (w % 2 ^ 32, { s with rxQ := rest }) := by
        unfold pio_sm_get
        rw [hq]
      rw [hget]
      dsimp only
      have hlen : k ≤ rest.length := by
        rw [hq] at h3
        simp at h3
        omega
      rw [ih { s with rxQ := rest } (writeBytes buf i (w % 2 ^ 32) 4) num (i + 4)
        (by omega) (by omega) hlen]
      dsimp only
      simp only [List.drop_succ_cons, List.take_succ_cons]
      have hidx : i + 4 + 4 * k = i + 4 * (k + 1) := by omega
      rw [hidx]
      rfl

theorem push_read_bytes_true (s : PioState) (num : Nat) (h16 : num ≤ 16) :
    ∃ s', oneWire_push_read_bytes_cmd s num true = (ONE_WIRE_NO_ERROR, s') ∧
      s'.rxQ = s.rxQ := by
  unfold oneWire_push_read_bytes_cmd
  rw [if_neg (by omega)]
  rw [if_neg (by simp)]
  rw [pushFullReads_eq (num / 4) s num 0 (by omega) (by omega)]
  dsimp only
  by_cases h4 : num - (0 + 4 * (num / 4)) > 0
  · rw [if_pos h4]
    exact ⟨_, rfl, rfl⟩
  · rw [if_neg h4]
    exact ⟨_, rfl, rfl⟩

theorem pull_read_bytes_true_exists (s : PioState) (buf : List Nat) (num : Nat)
    (h16 : num ≤ 16) (hrx : (num + 3) / 4 ≤ s.rxQ.length) :
    ∃ out s', oneWire_pull_read_bytes s buf num true =
      some (oneWire_CRC out num, s', out) := by
  unfold oneWire_pull_read_bytes
  rw [if_neg (by omega)]
  rw [if_neg (by simp)]
  rw [pullFullReads_eq (num / 4) s buf num 0 (by omega) (by omega) (by omega)]
  dsimp only
  by_cases h4 : num - (0 + 4 * (num / 4)) > 0
  · rw [if_pos h4]
    have hne : s.rxQ.drop (num / 4) ≠ [] := by
      intro hnil
      have hlen := congrArg List.length hnil
      simp only [List.length_drop, List.length_nil] at hlen
      omega
    cases hq : s.rxQ.drop (num / 4) with
    | nil => exact absurd hq hne
    | cons w rest =>
      have hget : pio_sm_get ⟨s.txQ, w :: rest⟩ =
          some (w % 2 ^ 32, ⟨s.txQ, rest⟩) := rfl
      rw [hget]
      exact ⟨_, _, rfl⟩
  · rw [if_neg h4]
    exact ⟨_, _, rfl⟩

/-- Pulling a block whose response words encode the byte list cs writes
exactly cs into the caller's buffer (the CRC status is taken over that
block). -/
theorem pull_read_bytes_decode (cs buf tx : List Nat)
    (hb : ∀ b ∈ cs, b < 256) (h1 : 1 ≤ cs.length) (h16 : cs.length ≤ 16)
    (hbuf : cs.length ≤ buf.length) :
    ∃ s', oneWire_pull_read_bytes ⟨tx, encodeResp cs⟩ buf cs.length true =
      some (oneWire_CRC (cs ++ buf.drop cs.length) cs.length, s',
            cs ++ buf.drop cs.length) := by
  unfold oneWire_pull_read_bytes
  rw [if_neg (by omega)]
  rw [if_neg (by simp)]
  by_cases hm : cs.length % 4 = 0
  · -- whole-chunk block: no remainder word
    have hlenE : (encodeResp cs).length = cs.length / 4 :=
      length_encodeResp_mod4 cs.length cs le_rfl hm
    rw [pullFullReads_eq (cs.length / 4) ⟨tx, encodeResp cs⟩ buf cs.length 0
      (by omega) (by omega)
      (by show cs.length / 4 ≤ (encodeResp cs).length; rw [hlenE])]
    dsimp only
    rw [if_neg (by omega)]
    have htake : (encodeResp cs).take (cs.length / 4) = encodeResp cs := by
      rw [← hlenE]
      exact List.take_length _
    rw [htake]
    have hww : writeWords buf 0 (encodeResp cs) = cs ++ buf.drop cs.length := by
      rw [writeWords_eq _ buf 0 (by rw [hlenE]; omega)]
      rw [bytesOfWords_encodeResp cs.length cs le_rfl hb hm]
      rw [hlenE]
      rw [show 0 + 4 * (cs.length / 4) = cs.length by omega]
      simp
    rw [hww]
    exact ⟨_, rfl⟩
  · -- partial final chunk
    have hsplit := encodeResp_split cs.length cs le_rfl hm
    have hcsF : (cs.take (4 * (cs.length / 4))).length = 4 * (cs.length / 4) := by
      rw [List.length_take]
      omega
    have hlenF : (encodeResp (cs.take (4 * (cs.length / 4)))).length = cs.length / 4 := by
      rw [length_encodeResp_mod4 (cs.take (4 * (cs.length / 4))).length _ le_rfl
        (by rw [hcsF]; omega)]
      rw [hcsF]
      omega
    have hlenE : (encodeResp cs).length = cs.length / 4 + 1 := by
      rw [hsplit]
      simp [hlenF]
    rw [pullFullReads_eq (cs.length / 4) ⟨tx, encodeResp cs⟩ buf cs.length 0
      (by omega) (by omega)
      (by show cs.length / 4 ≤ (encodeResp cs).length; rw [hlenE]; omega)]
    dsimp only
    rw [if_pos (by omega)]
    have htakeE : (encodeResp cs).take (cs.length / 4) =
        encodeResp (cs.take (4 * (cs.length / 4))) := by
      rw [hsplit]
      exact List.take_left' hlenF
    have hdropE : (encodeResp cs).drop (cs.length / 4) =
        [packLE (cs.drop (4 * (cs.length / 4))) <<< (32 - 8 * (cs.length % 4))] := by
      rw [hsplit]
      exact List.drop_left' hlenF
    rw [htakeE, hdropE]
    have hget : pio_sm_get ⟨tx,
        [packLE (cs.drop (4 * (cs.length / 4))) <<< (32 - 8 * (cs.length % 4))]⟩ =
        some ((packLE (cs.drop (4 * (cs.length / 4))) <<< (32 - 8 * (cs.length % 4))) % 2 ^ 32,
          ⟨tx, []⟩) := rfl
    rw [hget]
    dsimp only
    rw [Nat.zero_add]
    rw [show cs.length - 4 * (cs.length / 4) = cs.length % 4 by omega]
    have hrlt : packLE (cs.drop (4 * (cs.length / 4))) < 2 ^ (8 * (cs.length % 4)) := by
      have h := packLE_lt (cs.drop (4 * (cs.length / 4)))
      rw [List.length_drop] at h
      rw [show cs.length - 4 * (cs.length / 4) = cs.length % 4 by omega] at h
      exact h
    have hpow : (2 : Nat) ^ (8 * (cs.length % 4)) * 2 ^ (32 - 8 * (cs.length % 4)) =
        2 ^ 32 := by
      rw [← Nat.pow_add]
      congr 1
      omega
    have hwlt : packLE (cs.drop (4 * (cs.length / 4))) <<< (32 - 8 * (cs.length % 4)) <
        2 ^ 32 := by
      rw [Nat.shiftLeft_eq]
      calc packLE (cs.drop (4 * (cs.length / 4))) * 2 ^ (32 - 8 * (cs.length % 4)) <
            2 ^ (8 * (cs.length % 4)) * 2 ^ (32 - 8 * (cs.length % 4)) :=
          (Nat.mul_lt_mul_right (Nat.pow_pos (by omega))).mpr hrlt
        _ = 2 ^ 32 := hpow
    rw [Nat.mod_eq_of_lt hwlt]
    have hshift : (packLE (cs.drop (4 * (cs.length / 4))) <<<
          (32 - 8 * (cs.length % 4))) >>> (32 - (cs.length % 4) * 8) =
        packLE (cs.drop (4 * (cs.length / 4))) := by
      rw [show (cs.length % 4) * 8 = 8 * (cs.length % 4) by ring]
      rw [Nat.shiftLeft_eq, Nat.shiftRight_eq_div_pow]
      exact Nat.mul_div_cancel _ (Nat.pow_pos (by omega))
    rw [hshift]
    have hwwF : writeWords buf 0 (encodeResp (cs.take (4 * (cs.length / 4)))) =
        cs.take (4 * (cs.length / 4)) ++ buf.drop (4 * (cs.length / 4)) := by
      rw [writeWords_eq _ buf 0 (by rw [hlenF]; omega)]
      rw [bytesOfWords_encodeResp (cs.take (4 * (cs.length / 4))).length _ le_rfl
        (fun b hbm => hb b (List.mem_of_mem_take hbm)) (by rw [hcsF]; omega)]
      rw [hlenF]
      rw [show 0 + 4 * (cs.length / 4) = 4 * (cs.length / 4) by omega]
      simp
    rw [hwwF]
    have hlenFD : (cs.take (4 * (cs.length / 4)) ++ buf.drop (4 * (cs.length / 4))).length =
        buf.length := by
      rw [List.length_append, hcsF, List.length_drop]
      omega
    have hfinal : writeBytes
        (cs.take (4 * (cs.length / 4)) ++ buf.drop (4 * (cs.length / 4)))
        (4 * (cs.length / 4)) (packLE (cs.drop (4 * (cs.length / 4)))) (cs.length % 4) =
        cs ++ buf.drop cs.length := by
      rw [writeBytes_eq _ _ _ _ (by rw [hlenFD]; omega)]
      rw [List.take_left' hcsF]
      have hmap : (List.range (cs.length % 4)).map
          (fun j => (packLE (cs.drop (4 * (cs.length / 4))) >>> (8 * j)) &&& 0xFF) =
          cs.drop (4 * (cs.length / 4)) := by
        rw [show cs.length % 4 = (cs.drop (4 * (cs.length / 4))).length by
          rw [List.length_drop]; omega]
        exact map_packLE _ (fun b hbm => hb b (List.mem_of_mem_drop hbm))
      rw [hmap]
      have hdrop2 : (cs.take (4 * (cs.length / 4)) ++ buf.drop (4 * (cs.length / 4))).drop
          (4 * (cs.length / 4) + cs.length % 4) = buf.drop cs.length := by
        rw [← List.drop_drop]
        rw [List.drop_left' hcsF]
        rw [List.drop_drop]
        congr 1
        omega
      rw [hdrop2]
      rw [List.take_append_drop]
    rw [hfinal]
    exact ⟨_, rfl⟩

/-- C5: readBytes (oneWire_read_bytes) returns ReadCrcFailure iff the CRC-8 of
the full returned block, including its trailing byte, is nonzero (and 0 iff it
is zero); and the round trip holds: a block extended with its correctly
computed trailing CRC-8 byte, delivered through the response queue, decodes
to exactly that block with status 0. -/
theorem read_bytes_crc_iff_roundtrip :
    (∀ (s : PioState) (buf : List Nat) (num : Nat), 1 ≤ num → num ≤ 16 →
      (num + 3) / 4 ≤ s.rxQ.length →
      ∃ st s' out, oneWire_read_bytes s buf num = some (st, s', out) ∧
        (st = ONE_WIRE_READ_CRC_FAILURE ↔ crcRun (out.take num) ≠ 0) ∧
        (st = ONE_WIRE_NO_ERROR ↔ crcRun (out.take num) = 0)) ∧
    (∀ (bs buf tx : List Nat), (∀ b ∈ bs, b < 256) →
      bs.length + 1 ≤ 16 → bs.length + 1 ≤ buf.length →
      ∃ s', oneWire_read_bytes ⟨tx, encodeResp (bs ++ [crcRun bs])⟩ buf (bs.length + 1) =
        some (ONE_WIRE_NO_ERROR, s',
          (bs ++ [crcRun bs]) ++ buf.drop (bs.length + 1))) := by
  constructor
  · intro s buf num h1 h16 hrx
    obtain ⟨s1, hpush, hrxq⟩ := push_read_bytes_true s num h16
    unfold oneWire_read_bytes
    rw [hpush]
    dsimp only
    rw [if_neg (by simp)]
    obtain ⟨out, s', hpull⟩ :=
      pull_read_bytes_true_exists s1 buf num h16 (by rw [hrxq]; exact hrx)
    refine ⟨oneWire_CRC out num, s', out, hpull, ?_, ?_⟩
    · unfold oneWire_CRC
      split <;> simp_all [ONE_WIRE_READ_CRC_FAILURE, ONE_WIRE_NO_ERROR]
    · unfold oneWire_CRC
      split <;> simp_all [ONE_WIRE_READ_CRC_FAILURE, ONE_WIRE_NO_ERROR]
  · intro bs buf tx hb h16 hbuf
    have hbcs : ∀ b ∈ bs ++ [crcRun bs], b < 256 := by
      intro b hbm
      rcases List.mem_append.mp hbm with h | h
      · exact hb b h
      · simp at h
        rw [h]
        exact crcRun_lt bs
    have hlcs : (bs ++ [crcRun bs]).length = bs.length + 1 := by simp
    obtain ⟨s1, hpush, hrxq⟩ :=
      push_read_bytes_true ⟨tx, encodeResp (bs ++ [crcRun bs])⟩ (bs.length + 1) h16
    obtain ⟨stx, srx⟩ := s1
    simp only at hrxq
    subst hrxq
    unfold oneWire_read_bytes
    rw [hpush]
    dsimp only
    rw [if_neg (by simp)]
    obtain ⟨s', hpull⟩ := pull_read_bytes_decode (bs ++ [crcRun bs]) buf stx hbcs
      (by rw [hlcs]; omega) (by rw [hlcs]; exact h16) (by rw [hlcs]; exact hbuf)
    rw [hlcs] at hpull
    refine ⟨s', ?_⟩
    rw [hpull]
    have hcrc : oneWire_CRC ((bs ++ [crcRun bs]) ++ buf.drop (bs.length + 1))
        (bs.length + 1) = ONE_WIRE_NO_ERROR := by
      unfold oneWire_CRC
      rw [List.take_left' hlcs]
      rw [crcRun_append_self]
      simp
    rw [hcrc]

/-- Witness for C5: the iff part at a one-byte read with response word
0xAA000000 in the queue, and the round trip at the two-byte block [18, 52]
extended with its CRC byte. -/
theorem read_bytes_crc_iff_roundtrip_witness :
    (∃ st s' out, oneWire_read_bytes ⟨[], [0xAA000000]⟩ [0] 1 = some (st, s', out) ∧
      (st = ONE_WIRE_READ_CRC_FAILURE ↔ crcRun (out.take 1) ≠ 0) ∧
      (st = ONE_WIRE_NO_ERROR ↔ crcRun (out.take 1) = 0)) ∧
    (∃ s', oneWire_read_bytes ⟨[], encodeResp ([18, 52] ++ [crcRun [18, 52]])⟩
        [0, 0, 0] ([18, 52].length + 1) =
      some (ONE_WIRE_NO_ERROR, s',
        ([18, 52] ++ [crcRun [18, 52]]) ++ [0, 0, 0].drop ([18, 52].length + 1))) :=
  ⟨read_bytes_crc_iff_roundtrip.1 ⟨[], [0xAA000000]⟩ [0] 1 (by omega) (by omega)
      (by simp),
   read_bytes_crc_iff_roundtrip.2 [18, 52] [0, 0, 0] [] (by decide) (by decide)
      (by decide)⟩


/-! ## Claims C9 and C10: search reset behaviour -/

/-- C9: on an empty bus no presence pulse answers the first reset, and
oneWire_search_rom returns count 0 — equal to the success status and distinct
from every negative error code — having written nothing to the caller's devs
array and performed no 64-bit walk. -/
theorem search_rom_empty_bus (fuel : Nat) :
    oneWire_search_rom (deviceBus []) (fuel + 1) = some (0, [], 0) ∧
    (0 : Int) = ONE_WIRE_NO_ERROR ∧
    (0 : Int) ≠ ONE_WIRE_POSSIBLE_FIFO_OVERFLOW ∧
    (0 : Int) ≠ ONE_WIRE_NOT_ENOUGH_TX_FIFO_SPACE ∧
    (0 : Int) ≠ ONE_WIRE_NOT_ENOUGH_DATA_IN_RX_FIFO ∧
    (0 : Int) ≠ ONE_WIRE_READ_CRC_FAILURE ∧
    (0 : Int) ≠ ONE_WIRE_SEARCH_ROM_FAILURE ∧
    (0 : Int) ≠ ONE_WIRE_ILLEGAL_DATA_SIZE_REQ := by
  refine ⟨rfl, by decide, by decide, by decide, by decide, by decide, by decide, by decide⟩

/-- Witness for C9 at fuel 3. -/
theorem search_rom_empty_bus_witness :
    oneWire_search_rom (deviceBus []) 3 = some (0, [], 0) :=
  (search_rom_empty_bus 2).1

/-- C10: whenever the presence pulse is absent at the reset that begins a
pass — including a later pass, after identifiers have been recorded into
devs — the search returns 0, not the partial device count and not an error
code, with the earlier passes' identifiers still in devs. -/
theorem search_rom_later_presence_failure (bus : Bus) (devs : List Nat)
    (cur dis p fuel : Nat) (h : bus.presence p = false) :
    searchLoop bus devs cur dis p (fuel + 1) = some (0, devs, p) := by
  unfold searchLoop
  rw [if_pos h]

/-- Witness for C10: one device already recorded, presence absent at pass 1;
the return value is 0 even though one identifier sits in devs. -/
theorem search_rom_later_presence_failure_witness :
    searchLoop presenceOnceBus [77] 0 0 1 5 = some (0, [77], 1) ∧
    (0 : Int) ≠ (([77] : List Nat).length : Int) :=
  ⟨search_rom_later_presence_failure presenceOnceBus [77] 0 0 1 4 (by decide),
   by decide⟩

/-! ## Claim C8: infrastructure (bit and path order utilities) -/


theorem testBit_setBit (x b j : Nat) :
    (setBit x b).testBit j = (x.testBit j || decide (b = j)) := by
  unfold setBit
  rw [Nat.testBit_or, Nat.testBit_two_pow]

theorem testBit_clearBit (x b j : Nat) :
    (clearBit x b).testBit j = (x.testBit j && !decide (b = j)) := by
  unfold clearBit
  by_cases hx : x.testBit b = true
  · rw [if_pos hx, Nat.testBit_xor, Nat.testBit_two_pow]
    by_cases hbj : b = j
    · subst hbj
      rw [hx]
      simp
    · simp [hbj]
  · rw [if_neg hx]
    by_cases hbj : b = j
    · subst hbj
      simp at hx
      simp [hx]
    · simp [hbj]

theorem setBit_self {x b : Nat} (h : x.testBit b = true) : setBit x b = x := by
  refine Nat.eq_of_testBit_eq (fun j => ?_)
  rw [testBit_setBit]
  by_cases hbj : b = j
  · subst hbj
    simp [h]
  · simp [hbj]

theorem clearBit_of_false {x b : Nat} (h : x.testBit b = false) : clearBit x b = x := by
  unfold clearBit
  rw [if_neg (by simp [h])]

theorem setBit_lt {x b n : Nat} (hx : x < 2 ^ n) (hb : b < n) : setBit x b < 2 ^ n :=
  Nat.or_lt_two_pow hx (Nat.pow_lt_pow_right (by omega) hb)

theorem clearBit_lt {x b n : Nat} (hx : x < 2 ^ n) (hb : b < n) : clearBit x b < 2 ^ n := by
  unfold clearBit
  split
  · exact Nat.xor_lt_two_pow hx (Nat.pow_lt_pow_right (by omega) hb)
  · exact hx

theorem testBit_high {x n j : Nat} (hx : x < 2 ^ n) (hj : n ≤ j) : x.testBit j = false :=
  Nat.testBit_lt_two_pow (lt_of_lt_of_le hx (Nat.pow_le_pow_right (by omega) hj))

theorem revTail_lt (k : Nat) : ∀ d b, revTail d b k < 2 ^ k := by
  induction k with
  | zero => intro d b; exact Nat.zero_lt_one
  | succ k ih =>
    intro d b
    show (if d.testBit b then 2 ^ k else 0) + revTail d (b + 1) k < 2 ^ (k + 1)
    have h1 := ih d (b + 1)
    have h2 : (2 : Nat) ^ (k + 1) = 2 ^ k + 2 ^ k := by
      rw [Nat.pow_succ]
      omega
    split <;> omega

theorem revTail_congr (k : Nat) : ∀ d e b,
    (∀ j, b ≤ j → j < b + k → d.testBit j = e.testBit j) →
    revTail d b k = revTail e b k := by
  induction k with
  | zero => intro d e b _; rfl
  | succ k ih =>
    intro d e b h
    show (if d.testBit b then 2 ^ k else 0) + revTail d (b + 1) k =
      (if e.testBit b then 2 ^ k else 0) + revTail e (b + 1) k
    rw [h b (le_refl b) (by omega)]
    rw [ih d e (b + 1) (fun j h1 h2 => h j (by omega) (by omega))]

theorem revTail_lt_of_bit {d e b : Nat} (k : Nat)
    (hd : d.testBit b = false) (he : e.testBit b = true) :
    revTail d b (k + 1) < revTail e b (k + 1) := by
  show (if d.testBit b then 2 ^ k else 0) + revTail d (b + 1) k <
    (if e.testBit b then 2 ^ k else 0) + revTail e (b + 1) k
  rw [hd, he]
  simp only [Bool.false_eq_true, if_false, if_true]
  have := revTail_lt k d (b + 1)
  omega

theorem revTail_lt_mono (m : Nat) : ∀ d e a k,
    (∀ i, a ≤ i → i < a + m → d.testBit i = e.testBit i) →
    revTail d (a + m) k < revTail e (a + m) k →
    revTail d a (m + k) < revTail e a (m + k) := by
  induction m with
  | zero =>
    intro d e a k _ hlt
    simpa using hlt
  | succ m ih =>
    intro d e a k h hlt
    rw [show m + 1 + k = (m + k) + 1 by omega]
    show (if d.testBit a then 2 ^ (m + k) else 0) + revTail d (a + 1) (m + k) <
      (if e.testBit a then 2 ^ (m + k) else 0) + revTail e (a + 1) (m + k)
    rw [h a (le_refl a) (by omega)]
    have hih := ih d e (a + 1) k (fun i h1 h2 => h i (by omega) (by omega))
      (by rw [show a + 1 + m = a + (m + 1) by omega]; exact hlt)
    by_cases hea : e.testBit a = true <;> simp only [hea, if_true, if_false] <;> omega

theorem revKey_lt_of_firstDiff {d e j : Nat} (hj : j < 64) (hs : sameLow d e j)
    (hd : d.testBit j = false) (he : e.testBit j = true) : revKey d < revKey e := by
  unfold revKey
  have h64 : j + (64 - j) = 64 := by omega
  rw [← h64]
  apply revTail_lt_mono j d e 0 (64 - j) (fun i h1 h2 => hs i (by omega))
  rw [Nat.zero_add]
  rw [show 64 - j = (64 - j - 1) + 1 by omega]
  exact revTail_lt_of_bit _ hd he

theorem exists_firstDiff {d e : Nat} (hne : d ≠ e) (hd : d < 2 ^ 64) (he : e < 2 ^ 64) :
    ∃ j, j < 64 ∧ sameLow d e j ∧ d.testBit j ≠ e.testBit j := by
  have hex : ∃ j, d.testBit j ≠ e.testBit j := by
    by_contra hall
    push_neg at hall
    exact hne (Nat.eq_of_testBit_eq (fun i => hall i))
  refine ⟨Nat.find hex, ?_, ?_, Nat.find_spec hex⟩
  · by_contra hge
    push_neg at hge
    have hspec := Nat.find_spec hex
    rw [testBit_high hd hge, testBit_high he hge] at hspec
    exact hspec rfl
  · intro i hi
    by_contra hne2
    exact (Nat.find_min hex hi) hne2

theorem revKey_ne {d e : Nat} (hne : d ≠ e) (hd : d < 2 ^ 64) (he : e < 2 ^ 64) :
    revKey d ≠ revKey e := by
  obtain ⟨j, hj, hs, hne2⟩ := exists_firstDiff hne hd he
  rcases hbd : d.testBit j <;> rcases hbe : e.testBit j
  · rw [hbd, hbe] at hne2
    simp at hne2
  · exact Nat.ne_of_lt (revKey_lt_of_firstDiff hj hs hbd hbe)
  · exact Nat.ne_of_gt
      (revKey_lt_of_firstDiff hj (fun i hi => (hs i hi).symm) hbe hbd)
  · rw [hbd, hbe] at hne2
    simp at hne2

theorem revKey_lt_elim {d e : Nat} (hd : d < 2 ^ 64) (he : e < 2 ^ 64)
    (hlt : revKey d < revKey e) :
    ∃ j, j < 64 ∧ sameLow d e j ∧ d.testBit j = false ∧ e.testBit j = true := by
  have hne : d ≠ e := by
    rintro rfl
    omega
  obtain ⟨j, hj, hs, hne2⟩ := exists_firstDiff hne hd he
  rcases hbd : d.testBit j <;> rcases hbe : e.testBit j
  · rw [hbd, hbe] at hne2
    simp at hne2
  · exact ⟨j, hj, hs, hbd, hbe⟩
  · have := revKey_lt_of_firstDiff hj (fun i hi => (hs i hi).symm) hbe hbd
    omega
  · rw [hbd, hbe] at hne2
    simp at hne2

theorem matchesPrefix_iff (ws : List Bool) : ∀ (d i : Nat),
    matchesPrefix d ws i = true ↔ ∀ j, j < ws.length → d.testBit (i + j) = ws.getD j false := by
  induction ws with
  | nil =>
    intro d i
    simp [matchesPrefix]
  | cons w ws ih =>
    intro d i
    show ((d.testBit i == w) && matchesPrefix d ws (i + 1)) = true ↔ _
    rw [Bool.and_eq_true, beq_iff_eq, ih d (i + 1)]
    constructor
    · rintro ⟨h0, hrest⟩ j hj
      cases j with
      | zero => simpa using h0
      | succ j =>
        have hlen : j < ws.length := by
          simp at hj
          omega
        have := hrest j hlen
        rw [List.getD_cons_succ]
        rw [show i + (j + 1) = (i + 1) + j by omega]
        exact this
    · intro h
      refine ⟨?_, ?_⟩
      · have := h 0 (by simp)
        simpa using this
      · intro j hj
        have := h (j + 1) (by simp; omega)
        rw [List.getD_cons_succ] at this
        rw [show (i + 1) + j = i + (j + 1) by omega]
        exact this

theorem length_lowBits (c b : Nat) : (lowBits c b).length = b := by
  simp [lowBits]

theorem getD_lowBits (c b j : Nat) (hj : j < b) :
    (lowBits c b).getD j false = c.testBit j := by
  simp [lowBits, List.getD_eq_getElem?_getD, List.getElem?_map, List.getElem?_range, hj]

/-- Membership in the remaining-device list computed by deviceBus at the
written prefix lowBits c b. -/
theorem mem_rem_iff (S : List Nat) (c b d : Nat) :
    (d ∈ S.filter (fun x => matchesPrefix x (lowBits c b) 0)) ↔
      d ∈ S ∧ sameLow d c b := by
  rw [List.mem_filter]
  refine and_congr_right (fun _ => ?_)
  rw [matchesPrefix_iff]
  unfold sameLow
  constructor
  · intro h j hj
    have := h j (by rw [length_lowBits]; exact hj)
    rw [getD_lowBits c b j hj] at this
    rw [Nat.zero_add] at this
    exact this
  · intro h j hj
    rw [length_lowBits] at hj
    rw [getD_lowBits c b j hj, Nat.zero_add]
    exact h j hj

theorem sameLow_refl (d b : Nat) : sameLow d d b := fun _ _ => rfl

theorem sameLow_symm {d e b : Nat} (h : sameLow d e b) : sameLow e d b :=
  fun j hj => (h j hj).symm

theorem sameLow_trans {d e f b : Nat} (h1 : sameLow d e b) (h2 : sameLow e f b) :
    sameLow d f b :=
  fun j hj => (h1 j hj).trans (h2 j hj)

theorem sameLow_mono {d e b b' : Nat} (hb : b' ≤ b) (h : sameLow d e b) :
    sameLow d e b' :=
  fun j hj => h j (by omega)

theorem sameLow_setBit (c b : Nat) : sameLow (setBit c b) c b := by
  intro j hj
  rw [testBit_setBit]
  simp [show b ≠ j by omega]

theorem sameLow_clearBit (c b : Nat) : sameLow (clearBit c b) c b := by
  intro j hj
  rw [testBit_clearBit]
  simp [show b ≠ j by omega]

theorem testBit_setBit_self (c b : Nat) : (setBit c b).testBit b = true := by
  rw [testBit_setBit]
  simp

theorem testBit_clearBit_self (c b : Nat) : (clearBit c b).testBit b = false := by
  rw [testBit_clearBit]
  simp

theorem lowBits_zero (c : Nat) : lowBits c 0 = [] := rfl

theorem lowBits_succ (c b : Nat) : lowBits c (b + 1) = lowBits c b ++ [c.testBit b] := by
  unfold lowBits
  rw [List.range_succ, List.map_append]
  rfl

theorem lowBits_congr {c c' : Nat} (b : Nat)
    (h : ∀ j, j < b → c.testBit j = c'.testBit j) : lowBits c b = lowBits c' b := by
  unfold lowBits
  apply List.map_congr_left
  intro j hj
  rw [List.mem_range] at hj
  exact h j hj

theorem lowBits_setBit_snoc (c b : Nat) :
    lowBits (setBit c b) (b + 1) = lowBits c b ++ [true] := by
  rw [lowBits_succ]
  congr 1
  · exact lowBits_congr b (fun j hj => ((sameLow_setBit c b) j hj))
  · rw [testBit_setBit_self]

theorem lowBits_clearBit_snoc (c b : Nat) :
    lowBits (clearBit c b) (b + 1) = lowBits c b ++ [false] := by
  rw [lowBits_succ]
  congr 1
  · exact lowBits_congr b (fun j hj => ((sameLow_clearBit c b) j hj))
  · rw [testBit_clearBit_self]

theorem lowBits_self_snoc {c b : Nat} :
    lowBits c (b + 1) = lowBits c b ++ [c.testBit b] :=
  lowBits_succ c b

theorem rem_all_true_iff (S : List Nat) (c b : Nat) (f : Nat → Bool) :
    (S.filter (fun x => matchesPrefix x (lowBits c b) 0)).all f = true ↔
      ∀ d ∈ S, sameLow d c b → f d = true := by
  rw [List.all_eq_true]
  constructor
  · intro h d hd hs
    exact h d ((mem_rem_iff S c b d).mpr ⟨hd, hs⟩)
  · intro h d hd
    have := (mem_rem_iff S c b d).mp hd
    exact h d this.1 this.2

theorem rem_all_false_iff (S : List Nat) (c b : Nat) (f : Nat → Bool) :
    (S.filter (fun x => matchesPrefix x (lowBits c b) 0)).all f = false ↔
      ∃ d ∈ S, sameLow d c b ∧ f d = false := by
  rw [← Bool.not_eq_true, rem_all_true_iff]
  push_neg
  constructor
  · rintro ⟨d, hd, hs, hf⟩
    exact ⟨d, hd, hs, by simpa using hf⟩
  · rintro ⟨d, hd, hs, hf⟩
    exact ⟨d, hd, hs, by simp [hf]⟩

/-- Greedy walk of the search pass over a region with no discrepancy flags:
from bit b on, the pass follows the agreed bits and takes the 1-branch at
every collision, ending at the revKey-greatest device below the current
prefix; the final flags mark exactly the collision positions of that
device's path. -/
theorem passFresh (S : List Nat) (hS : ∀ d ∈ S, d < 2 ^ 64) (p : Nat) :
    ∀ (k : Nat), ∀ (b cur dis : Nat),
    b + k = 64 → cur < 2 ^ 64 →
    (∀ j, b ≤ j → dis.testBit j = false) →
    (∃ d0, d0 ∈ S ∧ sameLow d0 cur b) →
    ∃ found dis',
      passBits (deviceBus S) p (lowBits cur b) cur dis k = some (found, dis') ∧
      found ∈ S ∧ sameLow found cur b ∧
      (∀ d ∈ S, sameLow d cur b → revKey d ≤ revKey found) ∧
      (∀ q, q < b ∨ 64 ≤ q → dis'.testBit q = dis.testBit q) ∧
      (∀ q, b ≤ q → q < 64 → (dis'.testBit q = true ↔ collision S found q)) := by
  intro k
  induction k with
  | zero =>
    intro b cur dis hbk hcur hdis hne
    obtain ⟨d0, hd0S, hd0s⟩ := hne
    have hb64 : b = 64 := by omega
    subst hb64
    have heq : ∀ e, e ∈ S → sameLow e cur 64 → e = cur := by
      intro e heS hes
      apply Nat.eq_of_testBit_eq
      intro i
      by_cases hi : i < 64
      · exact hes i hi
      · rw [testBit_high (hS e heS) (by omega), testBit_high hcur (by omega)]
    refine ⟨cur, dis, rfl, ?_, sameLow_refl cur 64, ?_, fun q _ => rfl,
      fun q h1 h2 => by omega⟩
    · rw [← heq d0 hd0S hd0s]
      exact hd0S
    · intro d hdS hds
      rw [heq d hdS hds]
  | succ k ih =>
    intro b cur dis hbk hcur hdis hne
    obtain ⟨d0, hd0S, hd0s⟩ := hne
    have hblt : b < 64 := by omega
    have hstep : passBits (deviceBus S) p (lowBits cur b) cur dis (k + 1) =
        (match (deviceBus S).read2 p (lowBits cur b) with
         | (wo1, wo2) =>
           if wo1 ≠ wo2 then
             passBits (deviceBus S) p (lowBits cur b ++ [wo1])
               (if wo1 then setBit cur (lowBits cur b).length
                else clearBit cur (lowBits cur b).length)
               (clearBit dis (lowBits cur b).length) k
           else if wo1 = false then
             if dis.testBit (lowBits cur b).length then
               passBits (deviceBus S) p
                 (lowBits cur b ++ [cur.testBit (lowBits cur b).length]) cur dis k
             else
               passBits (deviceBus S) p (lowBits cur b ++ [true])
                 (setBit cur (lowBits cur b).length)
                 (setBit dis (lowBits cur b).length) k
           else none) := rfl
    have hread0 : (deviceBus S).read2 p (lowBits cur b) =
        ((S.filter (fun x => matchesPrefix x (lowBits cur b) 0)).all
           (fun d => d.testBit (lowBits cur b).length),
         (S.filter (fun x => matchesPrefix x (lowBits cur b) 0)).all
           (fun d => !d.testBit (lowBits cur b).length)) := rfl
    rw [length_lowBits] at hread0
    rw [hstep, length_lowBits]
    cases hw1 : (S.filter (fun x => matchesPrefix x (lowBits cur b) 0)).all
        (fun d => d.testBit b) with
    | true =>
      cases hw2 : (S.filter (fun x => matchesPrefix x (lowBits cur b) 0)).all
          (fun d => !d.testBit b) with
      | true =>
        -- impossible: d0 would need both bit values at b
        exfalso
        have h1 := (rem_all_true_iff S cur b _).mp hw1 d0 hd0S hd0s
        have h2 := (rem_all_true_iff S cur b _).mp hw2 d0 hd0S hd0s
        rw [h1] at h2
        simp at h2
      | false =>
        -- all remaining devices have bit b = 1
        rw [hread0, hw1, hw2]
        dsimp only
        rw [if_pos (by decide : ¬(true = false))]
        have hall1 : ∀ d ∈ S, sameLow d cur b → d.testBit b = true :=
          (rem_all_true_iff S cur b _).mp hw1
        have hd0bit := hall1 d0 hd0S hd0s
        have hfc' : sameLow d0 (setBit cur b) (b + 1) := by
          intro j hj
          by_cases hjb : j < b
          · rw [hd0s j hjb]
            exact ((sameLow_setBit cur b) j hjb).symm
          · have hjb' : j = b := by omega
            subst hjb'
            rw [hd0bit, testBit_setBit_self]
        obtain ⟨found, dis', hpass, hfS, hfs, hmax, hpres, hcoll⟩ :=
          ih (b + 1) (setBit cur b) (clearBit dis b) (by omega) (setBit_lt hcur hblt)
            (by
              intro j hj
              rw [testBit_clearBit, hdis j (by omega)]
              rfl)
            ⟨d0, hd0S, hfc'⟩
        rw [lowBits_setBit_snoc] at hpass
        have hfcur : sameLow found cur b := by
          intro j hj
          rw [hfs j (by omega)]
          exact (sameLow_setBit cur b) j hj
        refine ⟨found, dis', hpass, hfS, hfcur, ?_, ?_, ?_⟩
        · intro d hdS hds
          apply hmax d hdS
          intro j hj
          by_cases hjb : j < b
          · rw [hds j hjb]
            exact ((sameLow_setBit cur b) j hjb).symm
          · have : j = b := by omega
            subst this
            rw [hall1 d hdS hds, testBit_setBit_self]
        · intro q hq
          have h1 : q < b + 1 ∨ 64 ≤ q := by omega
          rw [hpres q h1, testBit_clearBit]
          have : ¬(b = q) := by omega
          simp [this]
        · intro q hq1 hq2
          by_cases hqb : q = b
          · subst hqb
            rw [hpres q (by omega), testBit_clearBit]
            have hzero : (dis.testBit q && !decide (q = q)) = false := by simp
            rw [hzero]
            constructor
            · intro h
              simp at h
            · rintro ⟨-, ⟨dneg, hdnegS, hdnegs, hdnegbit⟩⟩
              have hd : dneg.testBit q = true :=
                hall1 dneg hdnegS (sameLow_trans hdnegs hfcur)
              rw [hdnegbit] at hd
              simp at hd
          · have hq1' : b + 1 ≤ q := by omega
            rw [hcoll q hq1' hq2]
    | false =>
      cases hw2 : (S.filter (fun x => matchesPrefix x (lowBits cur b) 0)).all
          (fun d => !d.testBit b) with
      | true =>
        -- all remaining devices have bit b = 0
        rw [hread0, hw1, hw2]
        dsimp only
        rw [if_pos (by decide : ¬(false = true))]
        have hall0 : ∀ d ∈ S, sameLow d cur b → d.testBit b = false := by
          intro d hd hs
          have := (rem_all_true_iff S cur b _).mp hw2 d hd hs
          simpa using this
        have hd0bit := hall0 d0 hd0S hd0s
        have hfc' : sameLow d0 (clearBit cur b) (b + 1) := by
          intro j hj
          by_cases hjb : j < b
          · rw [hd0s j hjb]
            exact ((sameLow_clearBit cur b) j hjb).symm
          · have hjb' : j = b := by omega
            subst hjb'
            rw [hd0bit, testBit_clearBit_self]
        obtain ⟨found, dis', hpass, hfS, hfs, hmax, hpres, hcoll⟩ :=
          ih (b + 1) (clearBit cur b) (clearBit dis b) (by omega) (clearBit_lt hcur hblt)
            (by
              intro j hj
              rw [testBit_clearBit, hdis j (by omega)]
              rfl)
            ⟨d0, hd0S, hfc'⟩
        rw [lowBits_clearBit_snoc] at hpass
        have hfcur : sameLow found cur b := by
          intro j hj
          rw [hfs j (by omega)]
          exact (sameLow_clearBit cur b) j hj
        refine ⟨found, dis', hpass, hfS, hfcur, ?_, ?_, ?_⟩
        · intro d hdS hds
          apply hmax d hdS
          intro j hj
          by_cases hjb : j < b
          · rw [hds j hjb]
            exact ((sameLow_clearBit cur b) j hjb).symm
          · have : j = b := by omega
            subst this
            rw [hall0 d hdS hds, testBit_clearBit_self]
        · intro q hq
          have h1 : q < b + 1 ∨ 64 ≤ q := by omega
          rw [hpres q h1, testBit_clearBit]
          have : ¬(b = q) := by omega
          simp [this]
        · intro q hq1 hq2
          by_cases hqb : q = b
          · subst hqb
            rw [hpres q (by omega), testBit_clearBit]
            have hzero : (dis.testBit q && !decide (q = q)) = false := by simp
            rw [hzero]
            constructor
            · intro h
              simp at h
            · rintro ⟨⟨dpos, hdposS, hdposs, hdposbit⟩, -⟩
              have hd : dpos.testBit q = false :=
                hall0 dpos hdposS (sameLow_trans hdposs hfcur)
              rw [hdposbit] at hd
              simp at hd
          · have hq1' : b + 1 ≤ q := by omega
            rw [hcoll q hq1' hq2]
      | false =>
        -- collision at b: both bit values occur; flag is clear, take the 1-branch
        rw [hread0, hw1, hw2]
        dsimp only
        rw [if_neg (by decide : ¬¬(false = false)), if_pos rfl]
        have hdisb : dis.testBit b = false := hdis b (le_refl b)
        rw [if_neg (by simp [hdisb])]
        obtain ⟨dneg, hdnegS, hdnegs, hdnegbit⟩ := (rem_all_false_iff S cur b _).mp hw1
        obtain ⟨dpos, hdposS, hdposs, hdposbit'⟩ := (rem_all_false_iff S cur b _).mp hw2
        have hdposbit : dpos.testBit b = true := by
          simpa using hdposbit'
        have hfc' : sameLow dpos (setBit cur b) (b + 1) := by
          intro j hj
          by_cases hjb : j < b
          · rw [hdposs j hjb]
            exact ((sameLow_setBit cur b) j hjb).symm
          · have hjb' : j = b := by omega
            subst hjb'
            rw [hdposbit, testBit_setBit_self]
        obtain ⟨found, dis', hpass, hfS, hfs, hmax, hpres, hcoll⟩ :=
          ih (b + 1) (setBit cur b) (setBit dis b) (by omega) (setBit_lt hcur hblt)
            (by
              intro j hj
              rw [testBit_setBit, hdis j (by omega)]
              simp [show ¬(b = j) by omega])
            ⟨dpos, hdposS, hfc'⟩
        rw [lowBits_setBit_snoc] at hpass
        have hfcur : sameLow found cur b := by
          intro j hj
          rw [hfs j (by omega)]
          exact (sameLow_setBit cur b) j hj
        have hfbit : found.testBit b = true := by
          rw [hfs b (by omega), testBit_setBit_self]
        refine ⟨found, dis', hpass, hfS, hfcur, ?_, ?_, ?_⟩
        · intro d hdS hds
          cases hdb : d.testBit b with
          | true =>
            apply hmax d hdS
            intro j hj
            by_cases hjb : j < b
            · rw [hds j hjb]
              exact ((sameLow_setBit cur b) j hjb).symm
            · have : j = b := by omega
              subst this
              rw [hdb, testBit_setBit_self]
          | false =>
            apply le_of_lt
            apply revKey_lt_of_firstDiff hblt
              (sameLow_trans hds (sameLow_symm hfcur)) hdb hfbit
        · intro q hq
          have h1 : q < b + 1 ∨ 64 ≤ q := by omega
          rw [hpres q h1, testBit_setBit]
          have : ¬(b = q) := by omega
          simp [this]
        · intro q hq1 hq2
          by_cases hqb : q = b
          · subst hqb
            rw [hpres q (by omega), testBit_setBit]
            have hone : (dis.testBit q || decide (q = q)) = true := by simp
            rw [hone]
            constructor
            · intro _
              refine ⟨⟨dpos, hdposS, sameLow_trans hdposs (sameLow_symm hfcur), hdposbit⟩,
                ⟨dneg, hdnegS, sameLow_trans hdnegs (sameLow_symm hfcur), hdnegbit⟩⟩
            · intro _
              rfl
          · have hq1' : b + 1 ≤ q := by omega
            rw [hcoll q hq1' hq2]


/-- Re-follow of the recorded path through the flagged region: below position
m every collision position carries a discrepancy flag, so the pass rewrites
the bits of cur unchanged until it leaves the region at m+1, from where the
greedy walk of passFresh takes over. -/
theorem passConstrained (S : List Nat) (hS : ∀ d ∈ S, d < 2 ^ 64) (p : Nat)
    (m : Nat) (hm : m < 64) : ∀ (n : Nat), ∀ (j cur dis : Nat),
    j + n = m + 1 → cur < 2 ^ 64 →
    (∀ q, m < q → dis.testBit q = false) →
    (∀ q, j ≤ q → q ≤ m → collision S cur q → dis.testBit q = true) →
    (∃ d0, d0 ∈ S ∧ sameLow d0 cur (m + 1)) →
    ∃ found dis',
      passBits (deviceBus S) p (lowBits cur j) cur dis (64 - j) = some (found, dis') ∧
      found ∈ S ∧ sameLow found cur (m + 1) ∧
      (∀ d ∈ S, sameLow d cur (m + 1) → revKey d ≤ revKey found) ∧
      (∀ q, q < j ∨ 64 ≤ q → dis'.testBit q = dis.testBit q) ∧
      (∀ q, j ≤ q → q < 64 → (dis'.testBit q = true ↔ collision S found q)) := by
  intro n
  induction n with
  | zero =>
    intro j cur dis hjn hcur hhigh hflag hne
    have hj : j = m + 1 := by omega
    subst hj
    exact passFresh S hS p (64 - (m + 1)) (m + 1) cur dis (by omega) hcur
      (fun q hq => hhigh q (by omega)) hne
  | succ n ihn =>
    intro j cur dis hjn hcur hhigh hflag hne
    obtain ⟨d0, hd0S, hd0s⟩ := hne
    have hjm : j ≤ m := by omega
    have hjlt : j < 64 := by omega
    have hd0j : sameLow d0 cur j := sameLow_mono (by omega) hd0s
    have hcnt : 64 - j = (64 - (j + 1)) + 1 := by omega
    rw [hcnt]
    have hstep : passBits (deviceBus S) p (lowBits cur j) cur dis ((64 - (j + 1)) + 1) =
        (match (deviceBus S).read2 p (lowBits cur j) with
         | (wo1, wo2) =>
           if wo1 ≠ wo2 then
             passBits (deviceBus S) p (lowBits cur j ++ [wo1])
               (if wo1 then setBit cur (lowBits cur j).length
                else clearBit cur (lowBits cur j).length)
               (clearBit dis (lowBits cur j).length) (64 - (j + 1))
           else if wo1 = false then
             if dis.testBit (lowBits cur j).length then
               passBits (deviceBus S) p
                 (lowBits cur j ++ [cur.testBit (lowBits cur j).length]) cur dis
                 (64 - (j + 1))
             else
               passBits (deviceBus S) p (lowBits cur j ++ [true])
                 (setBit cur (lowBits cur j).length)
                 (setBit dis (lowBits cur j).length) (64 - (j + 1))
           else none) := rfl
    have hread0 : (deviceBus S).read2 p (lowBits cur j) =
        ((S.filter (fun x => matchesPrefix x (lowBits cur j) 0)).all
           (fun d => d.testBit (lowBits cur j).length),
         (S.filter (fun x => matchesPrefix x (lowBits cur j) 0)).all
           (fun d => !d.testBit (lowBits cur j).length)) := rfl
    rw [length_lowBits] at hread0
    rw [hstep, length_lowBits]
    cases hw1 : (S.filter (fun x => matchesPrefix x (lowBits cur j) 0)).all
        (fun d => d.testBit j) with
    | true =>
      cases hw2 : (S.filter (fun x => matchesPrefix x (lowBits cur j) 0)).all
          (fun d => !d.testBit j) with
      | true =>
        exfalso
        have h1 := (rem_all_true_iff S cur j _).mp hw1 d0 hd0S hd0j
        have h2 := (rem_all_true_iff S cur j _).mp hw2 d0 hd0S hd0j
        rw [h1] at h2
        simp at h2
      | false =>
        -- all remaining devices read 1 at j, which is cur's bit j
        rw [hread0, hw1, hw2]
        dsimp only
        rw [if_pos (by decide : ¬(true = false))]
        have hall1 : ∀ d ∈ S, sameLow d cur j → d.testBit j = true :=
          (rem_all_true_iff S cur j _).mp hw1
        have hcurbit : cur.testBit j = true := by
          rw [← hd0s j (by omega)]
          exact hall1 d0 hd0S hd0j
        rw [setBit_self hcurbit]
        have hwr : lowBits cur j ++ [true] = lowBits cur (j + 1) := by
          rw [lowBits_succ, hcurbit]
        rw [hwr]
        obtain ⟨found, dis', hpass, hfS, hfs, hmax, hpres, hcoll⟩ :=
          ihn (j + 1) cur (clearBit dis j) (by omega) hcur
            (by
              intro q hq
              rw [testBit_clearBit, hhigh q hq]
              rfl)
            (by
              intro q hq1 hq2 hc
              rw [testBit_clearBit, hflag q (by omega) hq2 hc]
              simp [show ¬(j = q) by omega])
            ⟨d0, hd0S, hd0s⟩
        refine ⟨found, dis', hpass, hfS, hfs, hmax, ?_, ?_⟩
        · intro q hq
          rw [hpres q (by omega), testBit_clearBit]
          simp [show ¬(j = q) by omega]
        · intro q hq1 hq2
          by_cases hqj : q = j
          · subst hqj
            rw [hpres q (by omega), testBit_clearBit]
            have hzero : (dis.testBit q && !decide (q = q)) = false := by simp
            rw [hzero]
            constructor
            · intro h
              simp at h
            · rintro ⟨-, ⟨dneg, hdnegS, hdnegs, hdnegbit⟩⟩
              have hfcur : sameLow found cur q := sameLow_mono (by omega) hfs
              have hd : dneg.testBit q = true :=
                hall1 dneg hdnegS (sameLow_trans hdnegs hfcur)
              rw [hdnegbit] at hd
              simp at hd
          · exact hcoll q (by omega) hq2
    | false =>
      cases hw2 : (S.filter (fun x => matchesPrefix x (lowBits cur j) 0)).all
          (fun d => !d.testBit j) with
      | true =>
        -- all remaining devices read 0 at j, which is cur's bit j
        rw [hread0, hw1, hw2]
        dsimp only
        rw [if_pos (by decide : ¬(false = true))]
        have hall0 : ∀ d ∈ S, sameLow d cur j → d.testBit j = false := by
          intro d hd hs
          have := (rem_all_true_iff S cur j _).mp hw2 d hd hs
          simpa using this
        have hcurbit : cur.testBit j = false := by
          rw [← hd0s j (by omega)]
          exact hall0 d0 hd0S hd0j
        rw [clearBit_of_false hcurbit]
        have hwr : lowBits cur j ++ [false] = lowBits cur (j + 1) := by
          rw [lowBits_succ, hcurbit]
        rw [hwr]
        obtain ⟨found, dis', hpass, hfS, hfs, hmax, hpres, hcoll⟩ :=
          ihn (j + 1) cur (clearBit dis j) (by omega) hcur
            (by
              intro q hq
              rw [testBit_clearBit, hhigh q hq]
              rfl)
            (by
              intro q hq1 hq2 hc
              rw [testBit_clearBit, hflag q (by omega) hq2 hc]
              simp [show ¬(j = q) by omega])
            ⟨d0, hd0S, hd0s⟩
        refine ⟨found, dis', hpass, hfS, hfs, hmax, ?_, ?_⟩
        · intro q hq
          rw [hpres q (by omega), testBit_clearBit]
          simp [show ¬(j = q) by omega]
        · intro q hq1 hq2
          by_cases hqj : q = j
          · subst hqj
            rw [hpres q (by omega), testBit_clearBit]
            have hzero : (dis.testBit q && !decide (q = q)) = false := by simp
            rw [hzero]
            constructor
            · intro h
              simp at h
            · rintro ⟨⟨dpos, hdposS, hdposs, hdposbit⟩, -⟩
              have hfcur : sameLow found cur q := sameLow_mono (by omega) hfs
              have hd : dpos.testBit q = false :=
                hall0 dpos hdposS (sameLow_trans hdposs hfcur)
              rw [hdposbit] at hd
              simp at hd
          · exact hcoll q (by omega) hq2
      | false =>
        -- collision at j: the invariant says the flag is set, so the pass
        -- re-follows cur's recorded bit
        rw [hread0, hw1, hw2]
        dsimp only
        rw [if_neg (by decide : ¬¬(false = false)), if_pos rfl]
        obtain ⟨dneg, hdnegS, hdnegs, hdnegbit⟩ := (rem_all_false_iff S cur j _).mp hw1
        obtain ⟨dpos, hdposS, hdposs, hdposbit'⟩ := (rem_all_false_iff S cur j _).mp hw2
        have hdposbit : dpos.testBit j = true := by simpa using hdposbit'
        have hcollj : collision S cur j :=
          ⟨⟨dpos, hdposS, hdposs, hdposbit⟩, ⟨dneg, hdnegS, hdnegs, hdnegbit⟩⟩
        have hdisj : dis.testBit j = true := hflag j (le_refl j) hjm hcollj
        rw [if_pos hdisj]
        have hwr : lowBits cur j ++ [cur.testBit j] = lowBits cur (j + 1) := by
          rw [lowBits_succ]
        rw [hwr]
        obtain ⟨found, dis', hpass, hfS, hfs, hmax, hpres, hcoll⟩ :=
          ihn (j + 1) cur dis (by omega) hcur hhigh
            (fun q hq1 hq2 hc => hflag q (by omega) hq2 hc)
            ⟨d0, hd0S, hd0s⟩
        refine ⟨found, dis', hpass, hfS, hfs, hmax, ?_, ?_⟩
        · intro q hq
          exact hpres q (by omega)
        · intro q hq1 hq2
          by_cases hqj : q = j
          · subst hqj
            rw [hpres q (by omega), hdisj]
            have hcollf : collision S found q := by
              have hfcur : sameLow found cur q := sameLow_mono (by omega) hfs
              exact ⟨⟨dpos, hdposS, sameLow_trans hdposs (sameLow_symm hfcur), hdposbit⟩,
                ⟨dneg, hdnegS, sameLow_trans hdnegs (sameLow_symm hfcur), hdnegbit⟩⟩
            simp [hcollf]
          · exact hcoll q (by omega) hq2

theorem collision_congr {S : List Nat} {c c' b : Nat} (h : sameLow c c' b) :
    collision S c b ↔ collision S c' b := by
  unfold collision
  constructor <;>
    rintro ⟨⟨d1, h1S, h1s, h1b⟩, ⟨d2, h2S, h2s, h2b⟩⟩
  · exact ⟨⟨d1, h1S, sameLow_trans h1s h, h1b⟩, ⟨d2, h2S, sameLow_trans h2s h, h2b⟩⟩
  · exact ⟨⟨d1, h1S, sameLow_trans h1s (sameLow_symm h), h1b⟩,
      ⟨d2, h2S, sameLow_trans h2s (sameLow_symm h), h2b⟩⟩

theorem setBit_clearBit_self {x b : Nat} (h : x.testBit b = true) :
    setBit (clearBit x b) b = x := by
  refine Nat.eq_of_testBit_eq (fun j => ?_)
  rw [testBit_setBit, testBit_clearBit]
  by_cases hbj : b = j
  · subst hbj
    simp [h]
  · simp [hbj]

/-- When no flagged position carries a 1 in cur, the scan clears everything
and reports done. -/
theorem scanDiscrepancy_done (n : Nat) : ∀ (cur dis : Nat),
    (∀ q, q < n → ¬(dis.testBit q = true ∧ cur.testBit q = true)) →
    ∃ dis', scanDiscrepancy cur dis n = (cur, dis', true) := by
  induction n with
  | zero =>
    intro cur dis _
    exact ⟨dis, rfl⟩
  | succ n ih =>
    intro cur dis h
    have hstep : scanDiscrepancy cur dis (n + 1) =
        (if dis.testBit n then
          if cur.testBit n then (clearBit cur n, dis, false)
          else scanDiscrepancy cur (clearBit dis n) n
        else scanDiscrepancy cur dis n) := rfl
    by_cases hd : dis.testBit n = true
    · have hc : cur.testBit n = false := by
        cases hcb : cur.testBit n with
        | false => rfl
        | true => exact absurd ⟨hd, hcb⟩ (h n (by omega))
      obtain ⟨dis', hsc⟩ := ih cur (clearBit dis n)
        (fun q hq => by
          rw [testBit_clearBit]
          rintro ⟨h1, h2⟩
          exact h q (by omega) ⟨((Bool.and_eq_true _ _).mp h1).1, h2⟩)
      refine ⟨dis', ?_⟩
      rw [hstep, if_pos hd, if_neg (by simp [hc])]
      exact hsc
    · obtain ⟨dis', hsc⟩ := ih cur dis (fun q hq => h q (by omega))
      refine ⟨dis', ?_⟩
      rw [hstep, if_neg hd]
      exact hsc

/-- When m is the highest flagged position with a 1 in cur (below n), the scan
flips that bit of cur to 0, keeps the flags at and below m, clears the
flagged positions above m, and reports not-done. -/
theorem scanDiscrepancy_found (n : Nat) : ∀ (cur dis m : Nat), m < n →
    dis.testBit m = true → cur.testBit m = true →
    (∀ q, m < q → q < n → ¬(dis.testBit q = true ∧ cur.testBit q = true)) →
    ∃ dis', scanDiscrepancy cur dis n = (clearBit cur m, dis', false) ∧
      (∀ q, q ≤ m → dis'.testBit q = dis.testBit q) ∧
      (∀ q, m < q → q < n → dis'.testBit q = false) ∧
      (∀ q, n ≤ q → dis'.testBit q = dis.testBit q) := by
  induction n with
  | zero =>
    intro cur dis m hm
    omega
  | succ n ih =>
    intro cur dis m hm hdm hcm hno
    have hstep : scanDiscrepancy cur dis (n + 1) =
        (if dis.testBit n then
          if cur.testBit n then (clearBit cur n, dis, false)
          else scanDiscrepancy cur (clearBit dis n) n
        else scanDiscrepancy cur dis n) := rfl
    by_cases hmn : m = n
    · subst hmn
      refine ⟨dis, ?_, fun q _ => rfl, fun q h1 h2 => by omega, fun q _ => rfl⟩
      rw [hstep, if_pos hdm, if_pos hcm]
    · have hmlt : m < n := by omega
      by_cases hdn : dis.testBit n = true
      · have hcn : cur.testBit n = false := by
          cases hcb : cur.testBit n with
          | false => rfl
          | true => exact absurd ⟨hdn, hcb⟩ (hno n (by omega) (by omega))
        obtain ⟨dis', hsc, hle, hmid, hge⟩ := ih cur (clearBit dis n) m hmlt
          (by
            rw [testBit_clearBit]
            simp [hdm, show ¬(n = m) by omega])
          hcm
          (fun q h1 h2 => by
            rw [testBit_clearBit]
            rintro ⟨ha, hb⟩
            exact hno q h1 (by omega) ⟨((Bool.and_eq_true _ _).mp ha).1, hb⟩)
        refine ⟨dis', ?_, ?_, ?_, ?_⟩
        · rw [hstep, if_pos hdn, if_neg (by simp [hcn])]
          exact hsc
        · intro q hq
          rw [hle q hq, testBit_clearBit]
          simp [show ¬(n = q) by omega]
        · intro q h1 h2
          by_cases hqn : q = n
          · subst hqn
            rw [hge q (le_refl q), testBit_clearBit]
            simp
          · exact hmid q h1 (by omega)
        · intro q hq
          rw [hge q (by omega), testBit_clearBit]
          simp [show ¬(n = q) by omega]
      · obtain ⟨dis', hsc, hle, hmid, hge⟩ := ih cur dis m hmlt hdm hcm
          (fun q h1 h2 => hno q h1 (by omega))
        refine ⟨dis', ?_, hle, ?_, ?_⟩
        · rw [hstep, if_neg hdn]
          exact hsc
        · intro q h1 h2
          by_cases hqn : q = n
          · subst hqn
            simp only [Bool.not_eq_true] at hdn
            rw [hge q (le_refl q), hdn]
          · exact hmid q h1 (by omega)
        · intro q hq
          exact hge q (by omega)


/-- From the loop-head invariant, one 64-bit walk succeeds and finds the
revKey-greatest not-yet-recorded device, leaving the flags at exactly its
collision positions. -/
theorem pass_of_inv (S : List Nat) (hS : ∀ d ∈ S, d < 2 ^ 64) (p : Nat)
    (cur dis : Nat) (U : List Nat) (hcur : cur < 2 ^ 64)
    (hUS : ∀ d ∈ U, d ∈ S) (hUne : U ≠ []) (hinv : SearchInv S cur dis U) :
    ∃ found dis₁, passBits (deviceBus S) p [] cur dis 64 = some (found, dis₁) ∧
      found ∈ S ∧ found ∈ U ∧
      (∀ d ∈ U, revKey d ≤ revKey found) ∧
      (∀ d ∈ S, revKey d < revKey found → d ∈ U) ∧
      (∀ q, q < 64 → (dis₁.testBit q = true ↔ collision S found q)) ∧
      (∀ q, 64 ≤ q → dis₁.testBit q = false) := by
  rcases hinv with ⟨hc0, hd0, hUS'⟩ | ⟨m, hm, hcm, hB2, hB3, hrS, hT, hB5, hUchar⟩
  · subst hc0
    subst hd0
    obtain ⟨d0, hd0U⟩ := List.exists_mem_of_ne_nil _ hUne
    obtain ⟨found, dis₁, hpass, hfS, hfs, hmax, hpres, hcoll⟩ :=
      passFresh S hS p 64 0 0 0 (by omega) (by positivity)
        (fun j _ => Nat.zero_testBit j) ⟨d0, hUS d0 hd0U, fun j hj => by omega⟩
    rw [show lowBits 0 0 = ([] : List Bool) from rfl] at hpass
    refine ⟨found, dis₁, hpass, hfS, ?_, ?_, ?_, fun q hq => hcoll q (by omega) hq, ?_⟩
    · rw [hUS']
      exact hfS
    · intro d hdU
      exact hmax d (hUS d hdU) (fun j hj => by omega)
    · intro d hdS _
      rw [hUS']
      exact hdS
    · intro q hq
      rw [hpres q (Or.inr hq)]
      exact Nat.zero_testBit q
  · -- intermediate state: r = setBit cur m was the last device found
    have hrS64 : setBit cur m < 2 ^ 64 := hS _ hrS
    have hrm : (setBit cur m).testBit m = true := testBit_setBit_self cur m
    have hrlow : sameLow (setBit cur m) cur m := sameLow_setBit cur m
    obtain ⟨found, dis₁, hpass, hfS, hfs, hmax, hpres, hcoll⟩ :=
      passConstrained S hS p m hm (m + 1) 0 cur dis (by omega) hcur hB2
        (fun q _ hq2 hc => hB3 q hq2 hc) hT
    rw [show lowBits cur 0 = ([] : List Bool) from rfl] at hpass
    have hf64 : found < 2 ^ 64 := hS _ hfS
    have hfm : found.testBit m = false := by
      rw [hfs m (by omega)]
      exact hcm
    have hfr : revKey found < revKey (setBit cur m) :=
      revKey_lt_of_firstDiff hm
        (sameLow_trans (sameLow_mono (by omega) hfs) (sameLow_symm hrlow)) hfm hrm
    refine ⟨found, dis₁, hpass, hfS, (hUchar found hfS).mpr hfr, ?_, ?_,
      fun q hq => hcoll q (by omega) hq, ?_⟩
    · -- every still-pending device is at most found in revKey order
      intro d hdU
      have hdS := hUS d hdU
      have hdr : revKey d < revKey (setBit cur m) := (hUchar d hdS).mp hdU
      obtain ⟨j, hj, hsl, hdb, hrb⟩ := revKey_lt_elim (hS d hdS) hrS64 hdr
      have hcolj : collision S (setBit cur m) j :=
        ⟨⟨setBit cur m, hrS, sameLow_refl _ _, hrb⟩, ⟨d, hdS, hsl, hdb⟩⟩
      have hjm : j ≤ m := by
        by_contra hgt
        push_neg at hgt
        have := hB5 j hgt hj hcolj
        rw [this] at hrb
        exact Bool.false_ne_true hrb
      by_cases hjeq : j = m
      · subst hjeq
        apply hmax d hdS
        intro jj hjj
        by_cases hlt : jj < j
        · rw [hsl jj hlt]
          exact hrlow jj hlt
        · have : jj = j := by omega
          subst this
          rw [hdb, hcm]
      · have hjlt : j < m := by omega
        apply le_of_lt
        have hslf : sameLow d found j := by
          intro jj hjj
          rw [hsl jj hjj, hrlow jj (by omega), ← hfs jj (by omega)]
        have hfj : found.testBit j = true := by
          rw [hfs j (by omega), ← hrlow j hjlt]
          exact hrb
        exact revKey_lt_of_firstDiff (by omega) hslf hdb hfj
    · intro d hdS hlt
      exact (hUchar d hdS).mpr (lt_trans hlt hfr)
    · intro q hq
      rw [hpres q (Or.inr hq)]
      exact hB2 q (by omega)

theorem nodup_eq_singleton {U : List Nat} (hnd : U.Nodup) {x : Nat} (hx : x ∈ U)
    (hall : ∀ y ∈ U, y = x) : U = [x] := by
  cases U with
  | nil => cases hx
  | cons u us =>
    have hu : u = x := hall u (by simp)
    subst hu
    have hus : us = [] := by
      cases us with
      | nil => rfl
      | cons v vs =>
        have hv : v = u := hall v (by simp)
        subst hv
        simp at hnd
    rw [hus]

/-- After recording found and scanning, the new state satisfies the loop-head
invariant for the remaining devices U.erase found. -/
theorem inv_after_scan (S : List Nat) (hS : ∀ d ∈ S, d < 2 ^ 64)
    (found dis₁ : Nat) (U : List Nat) (m' : Nat)
    (hfS : found ∈ S) ( _hfoundU : found ∈ U) (hUnd : U.Nodup)
    (hUS : ∀ d ∈ U, d ∈ S)
    (hUmax : ∀ d ∈ U, revKey d ≤ revKey found)
    (hUsup : ∀ d ∈ S, revKey d < revKey found → d ∈ U)
    (hcoll : ∀ q, q < 64 → (dis₁.testBit q = true ↔ collision S found q))
    (hm'lt : m' < 64) (hdm' : dis₁.testBit m' = true) (hcm' : found.testBit m' = true)
    (hm'max : ∀ q, m' < q → q < 64 → ¬(dis₁.testBit q = true ∧ found.testBit q = true))
    (dis₂ : Nat)
    (hle : ∀ q, q ≤ m' → dis₂.testBit q = dis₁.testBit q)
    (hmid : ∀ q, m' < q → q < 64 → dis₂.testBit q = false)
    (hge : ∀ q, 64 ≤ q → dis₂.testBit q = dis₁.testBit q)
    (hhigh1 : ∀ q, 64 ≤ q → dis₁.testBit q = false) :
    SearchInv S (clearBit found m') dis₂ (U.erase found) ∧
    (∀ d ∈ U.erase found, d ∈ S) ∧ U.erase found ≠ [] ∧ (U.erase found).Nodup ∧
    clearBit found m' < 2 ^ 64 := by
  have hf64 : found < 2 ^ 64 := hS found hfS
  have hset : setBit (clearBit found m') m' = found := setBit_clearBit_self hcm'
  have hclow : sameLow (clearBit found m') found m' := sameLow_clearBit found m'
  have hcollm' : collision S found m' := (hcoll m' hm'lt).mp hdm'
  obtain ⟨-, ⟨dT, hdTS, hdTs, hdTb⟩⟩ := hcollm'
  have hdT2 : sameLow dT (clearBit found m') (m' + 1) := by
    intro jj hjj
    by_cases hlt : jj < m'
    · rw [hdTs jj hlt]
      exact (hclow jj hlt).symm
    · have : jj = m' := by omega
      subst this
      rw [hdTb, testBit_clearBit_self]
  have hdTlt : revKey dT < revKey found := revKey_lt_of_firstDiff hm'lt hdTs hdTb hcm'
  have hdTU : dT ∈ U.erase found := by
    rw [hUnd.mem_erase_iff]
    refine ⟨?_, hUsup dT hdTS hdTlt⟩
    intro heq
    rw [heq] at hdTb
    rw [hdTb] at hcm'
    exact Bool.false_ne_true hcm'
  constructor
  case right =>
    refine ⟨fun d hd => hUS d (List.mem_of_mem_erase hd), ?_, hUnd.erase found,
      clearBit_lt hf64 hm'lt⟩
    intro hnil
    rw [hnil] at hdTU
    cases hdTU
  refine Or.inr ⟨m', hm'lt, testBit_clearBit_self found m', ?_, ?_, ?_, ?_, ?_, ?_⟩
  · intro q hq
    by_cases hq64 : q < 64
    · exact hmid q hq hq64
    · rw [hge q (by omega)]
      exact hhigh1 q (by omega)
  · intro q hq hc
    rw [hle q hq]
    refine (hcoll q (by omega)).mpr ?_
    exact (collision_congr (sameLow_mono (by omega) hclow)).mp hc
  · rw [hset]
    exact hfS
  · exact ⟨dT, hdTS, hdT2⟩
  · intro q hq1 hq2 hc
    rw [hset] at hc ⊢
    have hflag : dis₁.testBit q = true := (hcoll q hq2).mpr hc
    cases hfq : found.testBit q with
    | false => rfl
    | true => exact absurd ⟨hflag, hfq⟩ (hm'max q hq1 hq2)
  · intro d hdS
    rw [hset, hUnd.mem_erase_iff]
    constructor
    · rintro ⟨hne, hdU⟩
      exact lt_of_le_of_ne (hUmax d hdU) (revKey_ne hne (hS d hdS) hf64)
    · intro hlt
      refine ⟨?_, hUsup d hdS hlt⟩
      intro heq
      rw [heq] at hlt
      omega

/-- Main loop invariant argument: from a loop-head state whose pending-device
set is U, the search records exactly the devices of U (in decreasing revKey
order), one per pass, and returns their count. -/
theorem searchLoop_spec (S : List Nat) (hS : ∀ d ∈ S, d < 2 ^ 64) :
    ∀ (fuel : Nat), ∀ (U devs : List Nat) (cur dis p : Nat),
    U.length ≤ fuel → U ≠ [] → U.Nodup → (∀ d ∈ U, d ∈ S) → cur < 2 ^ 64 →
    SearchInv S cur dis U →
    ∃ L, searchLoop (deviceBus S) devs cur dis p fuel =
      some (((devs.length + U.length : Nat) : Int), devs ++ L, p + U.length) ∧
      L.Perm U := by
  intro fuel
  induction fuel with
  | zero =>
    intro U devs cur dis p hlen hne
    have : U.length ≠ 0 := fun h => hne (List.length_eq_zero.mp h)
    omega
  | succ fuel ih =>
    intro U devs cur dis p hlen hUne hUnd hUS hcur hinv
    have hstep : searchLoop (deviceBus S) devs cur dis p (fuel + 1) =
        (if (deviceBus S).presence p = false then some (0, devs, p)
         else
           match passBits (deviceBus S) p [] cur dis 64 with
           | none => some (ONE_WIRE_SEARCH_ROM_FAILURE, devs, p + 1)
           | some (cur', dis') =>
             match scanDiscrepancy cur' dis' 64 with
             | (cur2, dis2, done) =>
               if done then some (((devs ++ [cur']).length : Int), devs ++ [cur'], p + 1)
               else searchLoop (deviceBus S) (devs ++ [cur']) cur2 dis2 (p + 1) fuel) := rfl
    have hSne : S ≠ [] := by
      obtain ⟨u, hu⟩ := List.exists_mem_of_ne_nil _ hUne
      exact List.ne_nil_of_mem (hUS u hu)
    have hpres : (deviceBus S).presence p = true := by
      show (!S.isEmpty) = true
      cases S with
      | nil => exact absurd rfl hSne
      | cons a as => rfl
    rw [hstep, hpres]
    rw [if_neg (by decide : ¬((true : Bool) = false))]
    obtain ⟨found, dis₁, hpass, hfS, hfU, hUmax, hUsup, hcoll, hhigh1⟩ :=
      pass_of_inv S hS p cur dis U hcur hUS hUne hinv
    rw [hpass]
    dsimp only
    have hf64 : found < 2 ^ 64 := hS found hfS
    have hU1le : 1 ≤ U.length := by
      cases U with
      | nil => exact absurd rfl hUne
      | cons a as => simp
    by_cases hP : ∃ q, q < 64 ∧ dis₁.testBit q = true ∧ found.testBit q = true
    · -- a pending branch remains: flip the deepest one and continue
      obtain ⟨q0, hq0lt, hq0P⟩ := hP
      have hm'P : dis₁.testBit (Nat.findGreatest
            (fun q => dis₁.testBit q = true ∧ found.testBit q = true) 63) = true ∧
          found.testBit (Nat.findGreatest
            (fun q => dis₁.testBit q = true ∧ found.testBit q = true) 63) = true :=
        Nat.findGreatest_spec (P := fun q => dis₁.testBit q = true ∧ found.testBit q = true)
          (by omega : q0 ≤ 63) hq0P
      have hm'le : Nat.findGreatest
          (fun q => dis₁.testBit q = true ∧ found.testBit q = true) 63 ≤ 63 :=
        Nat.findGreatest_le 63
      have hm'max : ∀ k, Nat.findGreatest
            (fun q => dis₁.testBit q = true ∧ found.testBit q = true) 63 < k → k < 64 →
          ¬(dis₁.testBit k = true ∧ found.testBit k = true) :=
        fun k h1 h2 => Nat.findGreatest_is_greatest h1 (by omega)
      obtain ⟨dis₂, hscan, hle, hmid, hge⟩ :=
        scanDiscrepancy_found 64 found dis₁
          (Nat.findGreatest (fun q => dis₁.testBit q = true ∧ found.testBit q = true) 63)
          (by omega) hm'P.1 hm'P.2 hm'max
      rw [hscan]
      dsimp only
      rw [if_neg (by decide : ¬((false : Bool) = true))]
      obtain ⟨hinv', hUS', hUne', hUnd', hcur'⟩ :=
        inv_after_scan S hS found dis₁ U _ hfS hfU hUnd hUS hUmax hUsup hcoll
          (by omega) hm'P.1 hm'P.2 hm'max dis₂ hle hmid hge hhigh1
      have hlen' : (U.erase found).length ≤ fuel := by
        rw [List.length_erase_of_mem hfU]
        omega
      obtain ⟨L', hrun, hperm⟩ :=
        ih (U.erase found) (devs ++ [found]) _ dis₂ (p + 1) hlen' hUne' hUnd' hUS' hcur' hinv'
      rw [hrun]
      refine ⟨found :: L', ?_, ?_⟩
      · have hlena : (devs ++ [found]).length + (U.erase found).length =
            devs.length + U.length := by
          rw [List.length_append, List.length_erase_of_mem hfU]
          simp
          omega
        have hlenp : (p + 1) + (U.erase found).length = p + U.length := by
          rw [List.length_erase_of_mem hfU]
          omega
        rw [hlena, hlenp]
        have hliste : (devs ++ [found]) ++ L' = devs ++ (found :: L') := by
          rw [List.append_assoc]
          rfl
        rw [hliste]
      · exact (List.Perm.cons found hperm).trans (List.perm_cons_erase hfU).symm
    · -- no pending branch: this was the last device
      push_neg at hP
      obtain ⟨dis₂, hscan⟩ := scanDiscrepancy_done 64 found dis₁
        (by
          intro q hq hpair
          exact absurd hpair.2 (hP q hq hpair.1))
      rw [hscan]
      dsimp only
      rw [if_pos rfl]
      have hUall : ∀ y ∈ U, y = found := by
        intro y hy
        by_contra hne
        have hlt : revKey y < revKey found :=
          lt_of_le_of_ne (hUmax y hy) (revKey_ne hne (hS y (hUS y hy)) hf64)
        obtain ⟨j, hj, hsl, hyb, hfb⟩ := revKey_lt_elim (hS y (hUS y hy)) hf64 hlt
        have hcolj : collision S found j :=
          ⟨⟨found, hfS, sameLow_refl _ _, hfb⟩, ⟨y, hUS y hy, hsl, hyb⟩⟩
        exact absurd hfb (hP j hj ((hcoll j hj).mpr hcolj))
      have hU1 : U = [found] := nodup_eq_singleton hUnd hfU hUall
      refine ⟨[found], ?_, by rw [hU1]⟩
      rw [hU1]
      simp

theorem length_filter_partition (p : Nat → Bool) (S : List Nat) :
    (S.filter p).length + (S.filter (fun a => !p a)).length = S.length := by
  induction S with
  | nil => rfl
  | cons a as ih =>
    simp only [List.filter_cons, List.length_cons]
    by_cases h : p a = true
    · rw [if_pos h, if_neg (by simp [h])]
      simp only [List.length_cons]
      omega
    · rw [if_neg h, if_pos (by rw [Bool.of_not_eq_true h]; rfl)]
      simp only [List.length_cons]
      omega

theorem branchCount_succ (S : List Nat) (b depth : Nat) :
    branchCount S b (depth + 1) =
      (if (S.filter (fun d => !d.testBit b)).length > 0 ∧
          (S.filter (fun d => d.testBit b)).length > 0 then
         1 + branchCount (S.filter (fun d => !d.testBit b)) (b + 1) depth +
           branchCount (S.filter (fun d => d.testBit b)) (b + 1) depth
       else if (S.filter (fun d => !d.testBit b)).length > 0 then
         branchCount (S.filter (fun d => !d.testBit b)) (b + 1) depth
       else branchCount (S.filter (fun d => d.testBit b)) (b + 1) depth) := by
  show (if ((S.filter (fun d => !d.testBit b)).length > 0 : Bool) &&
          ((S.filter (fun d => d.testBit b)).length > 0 : Bool) then _ else _) = _
  by_cases h0 : (S.filter (fun d => !d.testBit b)).length > 0 <;>
    by_cases h1 : (S.filter (fun d => d.testBit b)).length > 0 <;>
    simp [h0, h1]

theorem branchCount_eq : ∀ (depth b : Nat) (S : List Nat), S ≠ [] → S.Nodup →
    (∀ x ∈ S, ∀ y ∈ S, x ≠ y → ∃ i, b ≤ i ∧ i < b + depth ∧ x.testBit i ≠ y.testBit i) →
    branchCount S b depth + 1 = S.length := by
  intro depth
  induction depth with
  | zero =>
    intro b S hne hnd hdist
    cases S with
    | nil => exact absurd rfl hne
    | cons a as =>
      cases as with
      | nil => rfl
      | cons a2 as2 =>
        have hamem : a ∉ a2 :: as2 := (List.nodup_cons.mp hnd).1
        have hane : a ≠ a2 := fun h => hamem (h ▸ List.mem_cons_self a2 as2)
        obtain ⟨i, hi1, hi2, _⟩ := hdist a (List.mem_cons_self _ _) a2
          (List.mem_cons_of_mem _ (List.mem_cons_self _ _)) hane
        omega
  | succ depth ih =>
    intro b S hne hnd hdist
    have hpart : (S.filter (fun d => d.testBit b)).length +
        (S.filter (fun d => !d.testBit b)).length = S.length :=
      length_filter_partition (fun d => d.testBit b) S
    have hnd0 : (S.filter (fun d => !d.testBit b)).Nodup := (List.filter_sublist S).nodup hnd
    have hnd1 : (S.filter (fun d => d.testBit b)).Nodup := (List.filter_sublist S).nodup hnd
    have hdist0 : ∀ x ∈ S.filter (fun d => !d.testBit b), ∀ y ∈ S.filter (fun d => !d.testBit b),
        x ≠ y → ∃ i, b + 1 ≤ i ∧ i < b + 1 + depth ∧ x.testBit i ≠ y.testBit i := by
      intro x hx y hy hxy
      rw [List.mem_filter] at hx hy
      obtain ⟨i, hi1, hi2, hi3⟩ := hdist x hx.1 y hy.1 hxy
      refine ⟨i, ?_, by omega, hi3⟩
      rcases Nat.lt_or_ge b i with h | h
      · omega
      · exfalso
        have hib : i = b := by omega
        subst hib
        rw [Bool.not_eq_true', ← Bool.not_eq_true] at hx hy
        rw [Bool.of_not_eq_true hx.2, Bool.of_not_eq_true hy.2] at hi3
        exact hi3 rfl
    have hdist1 : ∀ x ∈ S.filter (fun d => d.testBit b), ∀ y ∈ S.filter (fun d => d.testBit b),
        x ≠ y → ∃ i, b + 1 ≤ i ∧ i < b + 1 + depth ∧ x.testBit i ≠ y.testBit i := by
      intro x hx y hy hxy
      rw [List.mem_filter] at hx hy
      obtain ⟨i, hi1, hi2, hi3⟩ := hdist x hx.1 y hy.1 hxy
      refine ⟨i, ?_, by omega, hi3⟩
      rcases Nat.lt_or_ge b i with h | h
      · omega
      · exfalso
        have hib : i = b := by omega
        subst hib
        rw [hx.2, hy.2] at hi3
        exact hi3 rfl
    have hSpos : 0 < S.length := List.length_pos.mpr hne
    rw [branchCount_succ]
    by_cases h0 : (S.filter (fun d => !d.testBit b)).length > 0 <;>
      by_cases h1 : (S.filter (fun d => d.testBit b)).length > 0
    · rw [if_pos ⟨h0, h1⟩]
      have e0 := ih (b + 1) _ (List.length_pos.mp h0) hnd0 hdist0
      have e1 := ih (b + 1) _ (List.length_pos.mp h1) hnd1 hdist1
      omega
    · rw [if_neg (fun h => h1 h.2), if_pos h0]
      have e0 := ih (b + 1) _ (List.length_pos.mp h0) hnd0 hdist0
      omega
    · rw [if_neg (fun h => h0 h.1), if_neg h0]
      have e1 := ih (b + 1) _ (List.length_pos.mp h1) hnd1 hdist1
      omega
    · omega

/-- C8: on a static non-empty bus of distinct 64-bit ROM codes (each read-bit
pair the wired-AND over still-matching devices), the search enumerates every
identifier exactly once, returns their count, and performs exactly
branchCount + 1 reset-and-walk passes; in particular two devices differing in
exactly one bit position take exactly two passes and both are returned. -/
theorem search_rom_enumerates (S : List Nat) (fuel : Nat)
    (hS64 : ∀ d ∈ S, d < 2 ^ 64) (hSne : S ≠ []) (hnd : S.Nodup)
    (hfuel : S.length ≤ fuel) :
    (∃ L : List Nat, oneWire_search_rom (deviceBus S) fuel =
        some ((S.length : Int), L, branchCount S 0 64 + 1) ∧ L.Perm S) ∧
    (∀ d1 d2 : Nat, S = [d1, d2] → (∃ i, i < 64 ∧ d2 = d1 ^^^ 2 ^ i) →
      ∃ L : List Nat, oneWire_search_rom (deviceBus S) fuel =
        some ((2 : Int), L, 2) ∧ L.Perm [d1, d2]) := by
  have hdist : ∀ x ∈ S, ∀ y ∈ S, x ≠ y →
      ∃ i, 0 ≤ i ∧ i < 0 + 64 ∧ x.testBit i ≠ y.testBit i := by
    intro x hx y hy hne
    by_contra hcon
    push_neg at hcon
    refine hne (Nat.eq_of_testBit_eq fun i => ?_)
    by_cases hi : i < 64
    · exact hcon i (Nat.zero_le i) (by omega)
    · rw [testBit_high (hS64 x hx) (by omega), testBit_high (hS64 y hy) (by omega)]
  have hbc : branchCount S 0 64 + 1 = S.length := branchCount_eq 64 0 S hSne hnd hdist
  have hinv0 : SearchInv S 0 0 S := Or.inl ⟨rfl, rfl, rfl⟩
  have hmain : ∃ L : List Nat, oneWire_search_rom (deviceBus S) fuel =
      some ((S.length : Int), L, branchCount S 0 64 + 1) ∧ L.Perm S := by
    obtain ⟨L, hrun, hperm⟩ := searchLoop_spec S hS64 fuel S [] 0 0 0 hfuel hSne hnd
      (fun d h => h) (Nat.two_pow_pos 64) hinv0
    refine ⟨L, ?_, hperm⟩
    show searchLoop (deviceBus S) [] 0 0 0 fuel = _
    rw [hrun]
    simp only [List.length_nil, Nat.zero_add, List.nil_append]
    rw [hbc]
  refine ⟨hmain, ?_⟩
  intro d1 d2 hSeq hxor
  subst hSeq
  obtain ⟨L, hrun, hperm⟩ := hmain
  refine ⟨L, ?_, hperm⟩
  rw [hrun, hbc]
  norm_num

theorem search_rom_enumerates_witness :
    (∃ L : List Nat, oneWire_search_rom (deviceBus [0, 1]) 2 =
        some ((([0, 1] : List Nat).length : Int), L, branchCount [0, 1] 0 64 + 1) ∧
        L.Perm [0, 1]) ∧
    (∀ d1 d2 : Nat, ([0, 1] : List Nat) = [d1, d2] →
      (∃ i, i < 64 ∧ d2 = d1 ^^^ 2 ^ i) →
      ∃ L : List Nat, oneWire_search_rom (deviceBus [0, 1]) 2 =
        some ((2 : Int), L, 2) ∧ L.Perm [d1, d2]) :=
  search_rom_enumerates [0, 1] 2 (by decide) (by decide) (by decide) (by decide)
